import Mathlib

/-!
# Verification of the lunadev-2025 localization / costmap core

Shallow embedding, in exact rational arithmetic, of the two core crates:

* `costmap/src/lib.rs` — per-batch rasterization of 3-D point clouds into a
  quadtree of height cells (`CostmapGenerator::create_points_sub`), the
  sliding-window publication loop (`CostmapGenerator::run`), and the safety
  query (`Costmap::is_global_point_safe`);
* `localization/src/lib.rs` — the particle-filter observation update,
  deprivation recovery, CDF construction and the reverse-scan parent
  sampling of `run_localizer`, and the per-IMU accumulation loop of
  `calibrate_localizer`.

Machine floats (`f32`/`f64` behind the `Float`/`RealField` abstraction) are
modelled as `ℚ`; transcendental kernels that live outside these two files
(`normal`, `random_unit_vector`, slerp, quaternion `scaled_axis`) enter as
explicit function parameters, so every definition below follows the control
and data flow of the source line by line while the numeric kernels stay
abstract.  Randomness is passed in as explicit streams.
-/

attribute [local semireducible] Rat.add Rat.mul Rat.inv Rat.sub

/-- 3-vector over `ℚ`, standing for `nalgebra::Vector3<N>` / `Point3<N>`. -/
structure Vec3 where
  x : ℚ
  y : ℚ
  z : ℚ
deriving DecidableEq, Repr

/-- Componentwise vector addition. -/
def vadd (a b : Vec3) : Vec3 := ⟨a.x + b.x, a.y + b.y, a.z + b.z⟩

/-- Componentwise vector subtraction. -/
def vsub (a b : Vec3) : Vec3 := ⟨a.x - b.x, a.y - b.y, a.z - b.z⟩

/-- Scalar multiple of a vector. -/
def vscale (c : ℚ) (a : Vec3) : Vec3 := ⟨c * a.x, c * a.y, c * a.z⟩

/-- The zero vector (`Vector3::default()`). -/
def vzero : Vec3 := ⟨0, 0, 0⟩

/-- Quaternion with rational coefficients, standing for
`nalgebra::UnitQuaternion<N>` (the unit constraint is irrelevant to the
claims proved here; the source stores four scalars). -/
structure Quat where
  w : ℚ
  i : ℚ
  j : ℚ
  k : ℚ
deriving DecidableEq, Repr

/-- Hamilton product, the `*` of `nalgebra` quaternions. -/
def qmul (a b : Quat) : Quat :=
  ⟨a.w * b.w - a.i * b.i - a.j * b.j - a.k * b.k,
   a.w * b.i + a.i * b.w + a.j * b.k - a.k * b.j,
   a.w * b.j - a.i * b.k + a.j * b.w + a.k * b.i,
   a.w * b.k + a.i * b.j - a.j * b.i + a.k * b.w⟩

/-- The identity quaternion (`UnitQuaternion::default()`). -/
def qone : Quat := ⟨1, 0, 0, 0⟩

/-- Rust `f32::round` / `f64::round`: round half away from zero
(`(p.x / resolution).round()` in `create_points_sub`). -/
def rustRound (q : ℚ) : ℤ :=
  if 0 ≤ q then ⌊q + 1 / 2⌋ else -⌊1 / 2 - q⌋

/-- Fueled floor-log₂; agrees with `Nat.log 2` once the fuel covers the
argument (`ilog2F_eq`). -/
def ilog2F : ℕ → ℕ → ℕ
  | 0, _ => 0
  | fuel + 1, n => if n ≤ 1 then 0 else ilog2F fuel (n / 2) + 1

/-- Fueled ceiling-log₂; agrees with `Nat.clog 2` once the fuel covers the
argument (`clog2F_eq`). -/
def clog2F : ℕ → ℕ → ℕ
  | 0, _ => 0
  | fuel + 1, n => if n ≤ 1 then 0 else clog2F fuel ((n + 1) / 2) + 1

/-- Rust `usize::next_power_of_two`: the smallest power of two that is
greater than or equal to the argument (`1` for `0`), i.e.
`2 ^ ⌈log₂ n⌉`. -/
def rustNextPowerOfTwo (n : ℕ) : ℕ := 2 ^ clog2F n n

/-- Rust `usize::ilog2`: `⌊log₂ n⌋` for positive `n`; the Rust call
**panics** on `0`, which the embedding surfaces as `none`. -/
def rustIlog2 (n : ℕ) : Option ℕ :=
  if n = 0 then none else some (ilog2F n n)

/-- `HeightCell` of `costmap/src/lib.rs`: running height sum and sample
count of one grid cell. -/
structure HeightCell where
  total_height : ℚ
  count : ℕ
deriving DecidableEq, Repr

/-- Rigid transform data stored in a `CostmapFrame` (`Isometry3<N>`),
kept as plain data so frames have decidable equality. -/
structure Iso where
  rot : Quat
  trans : Vec3
deriving DecidableEq, Repr

/-- The identity isometry (`Isometry3::identity()`). -/
def isoId : Iso := ⟨qone, vzero⟩

/-- `CostmapFrame` of `costmap/src/lib.rs`.  The quadtree is embedded as an
association list from anchor coordinates (usize pair) to `HeightCell`;
`quadtree_rs` stores exactly one value per occupied 1×1 region, and a
region is storable only when it lies inside the `2^depth × 2^depth` tree
area, which the embedding enforces at insertion (`insert_pt` returns
`None` for an out-of-bounds point and the cell is silently dropped). -/
structure CostmapFrame where
  cells : List ((ℕ × ℕ) × HeightCell)
  max_density : ℕ
  max_height : ℚ
  min_height : ℚ
  resolution : ℚ
  isometry : Iso
deriving DecidableEq, Repr

/-- The bounding-box accumulator of the first pass of `create_points_sub`
(lines 112–135). -/
structure Bounds where
  min_x : ℤ
  max_x : ℤ
  min_z : ℤ
  max_z : ℤ
  min_h : ℚ
  max_h : ℚ
deriving DecidableEq, Repr

/-- Bounding box seeded from the first mapped point. -/
def initBounds (e : (ℤ × ℤ) × ℚ) : Bounds :=
  ⟨e.1.1, e.1.1, e.1.2, e.1.2, e.2, e.2⟩

/-- One step of the bounding-box scan, with the source's `if … else if …`
structure per axis. -/
def boundsStep (b : Bounds) (e : (ℤ × ℤ) × ℚ) : Bounds :=
  { min_x := if e.1.1 < b.min_x then e.1.1 else b.min_x
    max_x := if e.1.1 < b.min_x then b.max_x
             else if e.1.1 > b.max_x then e.1.1 else b.max_x
    min_z := if e.1.2 < b.min_z then e.1.2 else b.min_z
    max_z := if e.1.2 < b.min_z then b.max_z
             else if e.1.2 > b.max_z then e.1.2 else b.max_z
    min_h := if e.2 < b.min_h then e.2 else b.min_h
    max_h := if e.2 < b.min_h then b.max_h
             else if e.2 > b.max_h then e.2 else b.max_h }

/-- Point-to-grid mapping of `create_points_sub` (lines 100–106): apply the
`PointTransformer` (a trait parameter of the source, hence a function
parameter here), divide x/z by the resolution, round, and keep y as the
height. -/
def mapPoints (tf : Vec3 → Vec3) (res : ℚ) (input : List Vec3) :
    List ((ℤ × ℤ) × ℚ) :=
  input.map fun p₀ =>
    let p := tf p₀
    ((rustRound (p.x / res), rustRound (p.z / res)), p.y)

/-- The bounding box of a non-empty mapped batch (`None` on empty input,
where the source's `filter_map` returns `None`). -/
def batchBounds (tf : Vec3 → Vec3) (res : ℚ) (input : List Vec3) :
    Option Bounds :=
  match mapPoints tf res input with
  | [] => none
  | first :: rest => some (rest.foldl boundsStep (initBounds first))

/-- `max_range` of line 137: the longer axis of the grid-index bounding
box, cast to `usize` (the difference is non-negative). -/
def maxRangeOf (b : Bounds) : ℕ :=
  ((b.max_x - b.min_x) ⊔ (b.max_z - b.min_z)).toNat

/-- The chosen quadtree depth of line 138:
`max_range.ilog2().next_power_of_two()`.  `none` when the batch is empty
(no frame emitted) or when `max_range = 0` (where `ilog2` panics). -/
def chosenDepth (tf : Vec3 → Vec3) (res : ℚ) (input : List Vec3) :
    Option ℕ :=
  match batchBounds tf res input with
  | none => none
  | some b => (rustIlog2 (maxRangeOf b)).map rustNextPowerOfTwo

/-- State of the quadtree-filling loop: the association list of cells plus
the running `max_density`. -/
structure QtState where
  cells : List ((ℕ × ℕ) × HeightCell)
  max_density : ℕ
deriving DecidableEq, Repr

/-- One step of the loop at lines 143–172.  The `modify` branch increments
an existing cell at the anchor; otherwise `insert_pt` adds a fresh cell,
but only when the 1×1 region at the anchor lies inside the tree's
`side × side` area (out-of-bounds points are dropped by `quadtree_rs`).
The source bumps `max_density` to at least 1 in the insert branch whether
or not the insertion succeeded. -/
def qtStep (side : ℕ) (st : QtState) (e : (ℕ × ℕ) × ℚ) : QtState :=
  match st.cells.lookup e.1 with
  | some c =>
      { cells := st.cells.map fun kc =>
          if kc.1 = e.1 then
            (kc.1, ⟨kc.2.total_height + e.2, kc.2.count + 1⟩)
          else kc
        max_density := st.max_density ⊔ (c.count + 1) }
  | none =>
      if e.1.1 + 1 ≤ side ∧ e.1.2 + 1 ≤ side then
        { cells := st.cells ++ [(e.1, ⟨e.2, 1⟩)]
          max_density := st.max_density ⊔ 1 }
      else
        { cells := st.cells, max_density := st.max_density ⊔ 1 }

/-- The anchor of a mapped point: `(ix - min_x, iz - min_z)` cast to
`usize` (both differences are non-negative for in-range bounds). -/
def anchorOf (b : Bounds) (e : (ℤ × ℤ) × ℚ) : ℕ × ℕ :=
  ((e.1.1 - b.min_x).toNat, (e.1.2 - b.min_z).toNat)

/-- Whether a mapped point's 1×1 region fits inside the tree area, i.e.
whether `quadtree_rs` accepts it. -/
def inBoundsPt (b : Bounds) (side : ℕ) (e : (ℤ × ℤ) × ℚ) : Prop :=
  (anchorOf b e).1 + 1 ≤ side ∧ (anchorOf b e).2 + 1 ≤ side

instance (b : Bounds) (side : ℕ) (e : (ℤ × ℤ) × ℚ) :
    Decidable (inBoundsPt b side e) := by
  unfold inBoundsPt; infer_instance

/-- Full rasterization of one batch (`create_points_sub`'s `filter_map`
closure).  Returns `none` for an empty batch — and also when
`max_range = 0`, where the source **panics** in `usize::ilog2`; both are
cases in which no frame is published. -/
def rasterize (tf : Vec3 → Vec3) (res : ℚ) (iso : Iso) (input : List Vec3) :
    Option CostmapFrame :=
  (batchBounds tf res input).bind fun b =>
    (rustIlog2 (maxRangeOf b)).bind fun l =>
      let side := 2 ^ rustNextPowerOfTwo l
      let st := (mapPoints tf res input).foldl
        (fun st e => qtStep side st (anchorOf b e, e.2)) ⟨[], 0⟩
      some { cells := st.cells
             max_density := st.max_density
             max_height := b.max_h
             min_height := b.min_h
             resolution := res
             isometry := iso }

/-- `Costmap` of `costmap/src/lib.rs` (the `CostmapInner` payload): a
point count, a safety threshold, and the window of shared frames. -/
structure Costmap where
  point_count : ℕ
  threshold : ℚ
  frames : List CostmapFrame
deriving DecidableEq, Repr

/-- `Costmap::is_global_point_safe` — the source body is literally
`false` (lines 51–53). -/
def is_global_point_safe (_c : Costmap) (_point : Vec3) (_radius : ℚ) :
    Bool :=
  false

/-- The placeholder frame filling the window before any batch arrives
(`CostmapGenerator::run`, lines 197–204): empty quadtree, zero extremes,
resolution one, identity isometry. -/
def defaultFrame : CostmapFrame :=
  { cells := [], max_density := 0, max_height := 0, min_height := 0
    resolution := 1, isometry := isoId }

/-- Publication step of the run loop (lines 208–210): `point_count` is the
sum over the window of `quadtree.len()`, the number of occupied cells of
each frame.  (The `threshold` field is never initialised by the loop; it
is embedded as `0`.) -/
def publishCostmap (slots : List CostmapFrame) : Costmap :=
  { point_count := (slots.map fun f => f.cells.length).sum
    threshold := 0
    frames := slots }

/-- One iteration of the window update (lines 215–219): store the received
frame at the current index, then advance and wrap the index. -/
def costmapStep (W : ℕ) (st : List CostmapFrame × ℕ) (f : CostmapFrame) :
    List CostmapFrame × ℕ :=
  (st.1.set st.2 f, if W ≤ st.2 + 1 then 0 else st.2 + 1)

/-- Window slots after the given received frames. -/
def slotsAfter (W : ℕ) (fs : List CostmapFrame) : List CostmapFrame :=
  (fs.foldl (costmapStep W) (List.replicate W defaultFrame, 0)).1

/-- Write index after the given received frames. -/
def idxAfter (W : ℕ) (fs : List CostmapFrame) : ℕ :=
  (fs.foldl (costmapStep W) (List.replicate W defaultFrame, 0)).2

/-- The sequence of published costmaps: the loop publishes at the top of
every iteration, so after `k` received frames there are `k + 1`
publications, the `i`-th one reflecting the first `i` frames. -/
def pubsAfter (W : ℕ) (fs : List CostmapFrame) : List Costmap :=
  (List.range (fs.length + 1)).map fun i =>
    publishCostmap (slotsAfter W (fs.take i))

/-- A concrete received frame (distinct from `defaultFrame`), used to
exercise the sliding window on explicit inputs. -/
def frameA : CostmapFrame :=
  { cells := [((0, 0), ⟨1, 1⟩)], max_density := 1, max_height := 1
    min_height := 1, resolution := 1, isometry := isoId }

/-- A second concrete received frame distinct from `defaultFrame`. -/
def frameB : CostmapFrame :=
  { cells := [((1, 0), ⟨2, 1⟩)], max_density := 1, max_height := 2
    min_height := 2, resolution := 1, isometry := isoId }

/-- A third concrete received frame distinct from `defaultFrame`. -/
def frameC : CostmapFrame :=
  { cells := [((0, 1), ⟨3, 1⟩)], max_density := 1, max_height := 3
    min_height := 3, resolution := 1, isometry := isoId }

/-! ## Localizer: particle filter (`localization/src/lib.rs`) -/

/-- `Particle` of `localization/src/lib.rs` (lines 236–252): five channel
values and five independent channel weights. -/
structure Particle where
  position : Vec3
  position_weight : ℚ
  orientation : Quat
  orientation_weight : ℚ
  linear_velocity : Vec3
  linear_velocity_weight : ℚ
  angular_velocity : Quat
  angular_velocity_weight : ℚ
  linear_acceleration : Vec3
  linear_acceleration_weight : ℚ
deriving DecidableEq, Repr

/-- The deprivation-recovery mutation loop
(`particles.par_iter_mut().take(count).for_each(...)`): the first `k`
particles of the sorted array get their channel value resampled and the
corrective weight added; the remainder is untouched.  The second argument
threads the particle index into the noise stream. -/
def bumpResample {α : Type} (setV : α → Particle → Particle)
    (setW : ℚ → Particle → Particle) (getW : Particle → ℚ)
    (corr : ℚ) (resample : ℕ → α) :
    ℕ → ℕ → List Particle → List Particle
  | 0, _, l => l
  | _ + 1, _, [] => []
  | kk + 1, i, p :: l =>
      setW (getW p + corr) (setV (resample i) p) ::
        bumpResample setV setW getW corr resample kk (i + 1) l

/-- The observation update of `run_localizer`, one weight channel.  The
source repeats this block five times (linear acceleration 335–363, angular
velocity 368–396, position 405–435, velocity 443–473, orientation
483–511); here the channel is selected by lens functions.

* `variance = 0`: snap every particle's value to the observation and reset
  the weight to `default_weight`.
* otherwise: multiply each weight by the observation density of the
  particle's value (`normal(0, std_dev, d(value, observation))` — the
  density and the metric live in `utils.rs`, outside this crate's `src`,
  and enter through `dens`), then sum.  If the unnormalized sum is at most
  `minimum_unnormalized_weight`, sort the whole particle array ascending by
  this channel's weight (the source uses an unstable quicksort; insertion
  sort is one valid sorted permutation), resample the first
  `⌈len · undeprivation_factor⌉` particles, add
  `(minimum_unnormalized_weight − S) / ⌈len · undeprivation_factor⌉` to
  each of their weights, and continue with the sum replaced by
  `minimum_unnormalized_weight`.  Finally divide every weight by the sum. -/
def reweight {α : Type} (getV : Particle → α) (getW : Particle → ℚ)
    (setW : ℚ → Particle → Particle) (dens : α → ℚ)
    (ps : List Particle) : List Particle :=
  ps.map fun p => setW (getW p * dens (getV p)) p

/-- The running unnormalized weight sum `S = Σ w_i` of one channel. -/
def unnormSum (getW : Particle → ℚ) (l : List Particle) : ℚ :=
  (l.map getW).sum

/-- The final per-channel normalization `w_i ← w_i / S`. -/
def normalizeBy (getW : Particle → ℚ) (setW : ℚ → Particle → Particle)
    (S : ℚ) (l : List Particle) : List Particle :=
  l.map fun p => setW (getW p / S) p

/-- `(particles.len() as N * undeprivation_factor).ceil()`: the number of
particles deprivation recovery perturbs, computed in the scalar field
before the cast to `usize`. -/
def depriveCount (undep : ℚ) (n : ℕ) : ℤ := ⌈(n : ℚ) * undep⌉

/-- `particles.par_sort_unstable_by(|a, b| w a ≤ w b)`: the particle array
sorted ascending by one channel's weight.  (The source's unstable sort
yields some sorted permutation; insertion sort is the canonical one.) -/
def sortByW (getW : Particle → ℚ) (l : List Particle) : List Particle :=
  List.insertionSort (fun a b => getW a ≤ getW b) l

/-- The particle list after deprivation recovery of one channel, before
normalization: sort ascending by the channel weight, then resample the
first `⌈len · undeprivation_factor⌉` particles and add the corrective
weight `(minimum_unnormalized_weight − S) / ⌈len · undeprivation_factor⌉`
to each (the division happens in the scalar field before the count is
cast to `usize`, as in the source). -/
def deprivedList {α : Type} (getV : Particle → α)
    (setV : α → Particle → Particle) (getW : Particle → ℚ)
    (setW : ℚ → Particle → Particle) (minW undep : ℚ) (dens : α → ℚ)
    (resample : ℕ → α) (ps : List Particle) : List Particle :=
  bumpResample setV setW getW
    ((minW - unnormSum getW (reweight getV getW setW dens ps)) /
      ((depriveCount undep ps.length : ℤ) : ℚ))
    resample (depriveCount undep ps.length).toNat 0
    (sortByW getW (reweight getV getW setW dens ps))

/-- See the block comment above: one channel's observation update. -/
def obsUpdateChan {α : Type} (getV : Particle → α)
    (setV : α → Particle → Particle) (getW : Particle → ℚ)
    (setW : ℚ → Particle → Particle) (minW undep defaultW : ℚ)
    (variance : ℚ) (snapVal : α) (dens : α → ℚ) (resample : ℕ → α)
    (ps : List Particle) : List Particle :=
  if variance = 0 then
    ps.map fun p => setW defaultW (setV snapVal p)
  else if unnormSum getW (reweight getV getW setW dens ps) ≤ minW then
    normalizeBy getW setW minW
      (deprivedList getV setV getW setW minW undep dens resample ps)
  else
    normalizeBy getW setW
      (unnormSum getW (reweight getV getW setW dens ps))
      (reweight getV getW setW dens ps)

/-- Value getter of the position channel. -/
def getPos (p : Particle) : Vec3 := p.position

/-- Value setter of the position channel. -/
def setPos (v : Vec3) (p : Particle) : Particle := { p with position := v }

/-- Weight getter of the position channel. -/
def getPosW (p : Particle) : ℚ := p.position_weight

/-- Weight setter of the position channel. -/
def setPosW (w : ℚ) (p : Particle) : Particle :=
  { p with position_weight := w }

/-- Value getter of the orientation channel. -/
def getOri (p : Particle) : Quat := p.orientation

/-- Value setter of the orientation channel. -/
def setOri (v : Quat) (p : Particle) : Particle :=
  { p with orientation := v }

/-- Weight getter of the orientation channel. -/
def getOriW (p : Particle) : ℚ := p.orientation_weight

/-- Weight setter of the orientation channel. -/
def setOriW (w : ℚ) (p : Particle) : Particle :=
  { p with orientation_weight := w }

/-- Value getter of the linear-velocity channel. -/
def getLinVel (p : Particle) : Vec3 := p.linear_velocity

/-- Value setter of the linear-velocity channel. -/
def setLinVel (v : Vec3) (p : Particle) : Particle :=
  { p with linear_velocity := v }

/-- Weight getter of the linear-velocity channel. -/
def getLinVelW (p : Particle) : ℚ := p.linear_velocity_weight

/-- Weight setter of the linear-velocity channel. -/
def setLinVelW (w : ℚ) (p : Particle) : Particle :=
  { p with linear_velocity_weight := w }

/-- Value getter of the angular-velocity channel. -/
def getAngVel (p : Particle) : Quat := p.angular_velocity

/-- Value setter of the angular-velocity channel. -/
def setAngVel (v : Quat) (p : Particle) : Particle :=
  { p with angular_velocity := v }

/-- Weight getter of the angular-velocity channel. -/
def getAngVelW (p : Particle) : ℚ := p.angular_velocity_weight

/-- Weight setter of the angular-velocity channel. -/
def setAngVelW (w : ℚ) (p : Particle) : Particle :=
  { p with angular_velocity_weight := w }

/-- Value getter of the linear-acceleration channel. -/
def getLinAcc (p : Particle) : Vec3 := p.linear_acceleration

/-- Value setter of the linear-acceleration channel. -/
def setLinAcc (v : Vec3) (p : Particle) : Particle :=
  { p with linear_acceleration := v }

/-- Weight getter of the linear-acceleration channel. -/
def getLinAccW (p : Particle) : ℚ := p.linear_acceleration_weight

/-- Weight setter of the linear-acceleration channel. -/
def setLinAccW (w : ℚ) (p : Particle) : Particle :=
  { p with linear_acceleration_weight := w }

/-- Linear-acceleration channel (IMU arm, lines 335–363). -/
def updLinearAcceleration (minW undep defaultW variance : ℚ)
    (snapVal : Vec3) (dens : Vec3 → ℚ) (resample : ℕ → Vec3) :
    List Particle → List Particle :=
  obsUpdateChan getLinAcc setLinAcc getLinAccW setLinAccW
    minW undep defaultW variance snapVal dens resample

/-- Angular-velocity channel (IMU arm, lines 368–396). -/
def updAngularVelocity (minW undep defaultW variance : ℚ)
    (snapVal : Quat) (dens : Quat → ℚ) (resample : ℕ → Quat) :
    List Particle → List Particle :=
  obsUpdateChan getAngVel setAngVel getAngVelW setAngVelW
    minW undep defaultW variance snapVal dens resample

/-- Position channel (position arm, lines 405–435). -/
def updPosition (minW undep defaultW variance : ℚ) (snapVal : Vec3)
    (dens : Vec3 → ℚ) (resample : ℕ → Vec3) :
    List Particle → List Particle :=
  obsUpdateChan getPos setPos getPosW setPosW
    minW undep defaultW variance snapVal dens resample

/-- Linear-velocity channel (velocity arm, lines 443–473). -/
def updLinearVelocity (minW undep defaultW variance : ℚ) (snapVal : Vec3)
    (dens : Vec3 → ℚ) (resample : ℕ → Vec3) :
    List Particle → List Particle :=
  obsUpdateChan getLinVel setLinVel getLinVelW setLinVelW
    minW undep defaultW variance snapVal dens resample

/-- Orientation channel (orientation arm, lines 483–511). -/
def updOrientation (minW undep defaultW variance : ℚ) (snapVal : Quat)
    (dens : Quat → ℚ) (resample : ℕ → Quat) :
    List Particle → List Particle :=
  obsUpdateChan getOri setOri getOriW setOriW
    minW undep defaultW variance snapVal dens resample

/-- One fired arm of the `tokio::select!` of `run_localizer`
(lines 310–513).  Values are carried after the sensor-frame-to-base
preprocessing except where that preprocessing is rational (the position
isometry application enters as a function, the orientation pre-rotation as
a concrete quaternion product); densities (`utils::normal` of the channel
metric) and deprivation noise draws enter as explicit functions. -/
inductive LocEvent where
  | timeout
  | imu (accVariance : ℚ) (accValue : Vec3) (accDens : Vec3 → ℚ)
      (accNoise : ℕ → Vec3) (angVariance : ℚ) (angValue : Quat)
      (angDens : Quat → ℚ) (angNoise : ℕ → Quat)
  | position (variance : ℚ) (rawPosition : Vec3) (isoInv : Vec3 → Vec3)
      (dens : Vec3 → ℚ) (noise : ℕ → Vec3)
  | velocity (variance : ℚ) (value : Vec3) (dens : Vec3 → ℚ)
      (noise : ℕ → Vec3)
  | orientation (variance : ℚ) (rawOrientation : Quat) (invRot : Quat)
      (dens : Quat → ℚ) (noise : ℕ → Quat)

/-- The observation-update phase of one loop iteration: apply the fired
arm's channel updates (the IMU arm performs the linear-acceleration update
and then the angular-velocity update; a timeout touches nothing).
Deprivation resampling draws `observation + noise` for vector channels and
`axis_angle_noise * observation` for quaternion channels, as in the
source. -/
def afterObs (minW undep defaultW : ℚ) :
    LocEvent → List Particle → List Particle
  | .timeout, ps => ps
  | .imu accVar accVal accDens accNoise angVar angVal angDens angNoise,
      ps =>
      updAngularVelocity minW undep defaultW angVar angVal angDens
        (fun i => qmul (angNoise i) angVal)
        (updLinearAcceleration minW undep defaultW accVar accVal accDens
          (fun i => vadd accVal (accNoise i)) ps)
  | .position variance rawPos isoInv dens noise, ps =>
      updPosition minW undep defaultW variance (isoInv rawPos) dens
        (fun i => vadd (isoInv rawPos) (noise i)) ps
  | .velocity variance val dens noise, ps =>
      updLinearVelocity minW undep defaultW variance val dens
        (fun i => vadd val (noise i)) ps
  | .orientation variance rawOri invRot dens noise, ps =>
      updOrientation minW undep defaultW variance (qmul invRot rawOri) dens
        (fun i => qmul (noise i) (qmul invRot rawOri)) ps

/-- CDF construction of the prediction phase (lines 518–597): one pass per
channel pushing `(value, running_weight)` **before** adding the particle's
weight, i.e. an exclusive prefix sum. -/
def exclCdf {α : Type} (getV : Particle → α) (getW : Particle → ℚ) :
    ℚ → List Particle → List (α × ℚ)
  | _, [] => []
  | acc, p :: ps => (getV p, acc) :: exclCdf getV getW (acc + getW p) ps

/-- The parent-sampling scan of the prediction phase
(`for (v, w) in cdf.iter().rev() { if sample >= w { … break } }`):
walk the CDF in reverse and return the value of the first entry whose
stored cumulative weight is at most the sample. -/
def revScanSelect {α : Type} (cdf : List (α × ℚ)) (u : ℚ) : Option α :=
  (cdf.reverse.find? fun e => decide (e.2 ≤ u)).map Prod.fst

/-- The random draws consumed by one particle's prediction step: six
uniform parent samples plus the two jitters (`random_unit_vector` scaled
by a Gaussian draw, and an axis-angle quaternion with Gaussian angle —
both produced by `utils` kernels outside this crate's `src`). -/
structure PredictRand where
  lvSample : ℚ
  accSample : ℚ
  posSample : ℚ
  lv2Sample : ℚ
  accJitter : Vec3
  oriSample : ℚ
  angSample : ℚ
  angJitter : Quat

/-- The per-particle prediction/resample body (lines 599–682): sample a
parent linear velocity and acceleration and integrate; sample a parent
position and linear velocity and integrate; jitter the linear
acceleration; sample a parent orientation and angular velocity and
integrate through slerp (`slerpK av Δ` stands for
`UnitQuaternion::default().try_slerp(av, Δ, ε).unwrap_or_default()`);
left-multiply the angular velocity by the random small-angle
quaternion. -/
def predictParticle (gvec : Vec3) (slerpK : Quat → ℚ → Quat) (delta : ℚ)
    (accCdf lvCdf posCdf : List (Vec3 × ℚ))
    (angCdf oriCdf : List (Quat × ℚ)) (r : PredictRand) (p : Particle) :
    Particle :=
  let p1 := match revScanSelect lvCdf r.lvSample with
    | some lv =>
        match revScanSelect accCdf r.accSample with
        | some accel =>
            let lv2 := vadd lv (vscale delta (vsub accel gvec))
            { p with linear_velocity := lv2 }
        | none => p
    | none => p
  let p2 := match revScanSelect posCdf r.posSample with
    | some pos =>
        match revScanSelect lvCdf r.lv2Sample with
        | some lv => { p1 with position := vadd pos (vscale delta lv) }
        | none => p1
    | none => p1
  let p3 := { p2 with
    linear_acceleration := vadd p2.linear_acceleration r.accJitter }
  let p4 := match revScanSelect oriCdf r.oriSample with
    | some ori =>
        match revScanSelect angCdf r.angSample with
        | some av => { p3 with orientation := qmul (slerpK av delta) ori }
        | none => p3
    | none => p3
  { p4 with angular_velocity := qmul r.angJitter p4.angular_velocity }

/-- The prediction phase: build the five exclusive CDFs from the current
particles, then map the per-particle body over the array (data-parallel in
the source, hence order-independent), threading each particle's random
draws by index. -/
def predict (gvec : Vec3) (slerpK : Quat → ℚ → Quat) (delta : ℚ)
    (rands : ℕ → PredictRand) (ps : List Particle) : List Particle :=
  let accCdf := exclCdf (fun p => p.linear_acceleration)
    (fun p => p.linear_acceleration_weight) 0 ps
  let lvCdf := exclCdf (fun p => p.linear_velocity)
    (fun p => p.linear_velocity_weight) 0 ps
  let posCdf := exclCdf (fun p => p.position)
    (fun p => p.position_weight) 0 ps
  let angCdf := exclCdf (fun p => p.angular_velocity)
    (fun p => p.angular_velocity_weight) 0 ps
  let oriCdf := exclCdf (fun p => p.orientation)
    (fun p => p.orientation_weight) 0 ps
  ps.enum.map fun ip =>
    predictParticle gvec slerpK delta accCdf lvCdf posCdf angCdf oriCdf
      (rands ip.1) ip.2

/-- Static parameters of the steady-state loop (`LocalizerBlackboard`
fields plus the numeric kernels that live outside this crate's `src`). -/
structure LocParams where
  minW : ℚ
  undep : ℚ
  defaultW : ℚ
  gvec : Vec3
  slerpK : Quat → ℚ → Quat

/-- The varying inputs of one loop iteration: the fired select arm, the
wall-clock delta, and the prediction-phase random draws. -/
structure IterStep where
  event : LocEvent
  delta : ℚ
  rands : ℕ → PredictRand

/-- One full iteration of the steady-state loop: observation update, then
CDF build + prediction.  (The aggregation phase mutates only the robot
base handle, not the particles.) -/
def iterateLoc (P : LocParams) (s : IterStep) (ps : List Particle) :
    List Particle :=
  predict P.gvec P.slerpK s.delta s.rands
    (afterObs P.minW P.undep P.defaultW s.event ps)

/-- The steady-state loop over a sequence of iteration inputs. -/
def runLoc (P : LocParams) (steps : List IterStep) (ps : List Particle) :
    List Particle :=
  steps.foldl (fun ps s => iterateLoc P s ps) ps

/-- Sum of the position weights over the cloud. -/
def sumPositionW (ps : List Particle) : ℚ := (ps.map getPosW).sum

/-- Sum of the orientation weights over the cloud. -/
def sumOrientationW (ps : List Particle) : ℚ := (ps.map getOriW).sum

/-- Sum of the linear-velocity weights over the cloud. -/
def sumLinearVelocityW (ps : List Particle) : ℚ := (ps.map getLinVelW).sum

/-- Sum of the angular-velocity weights over the cloud. -/
def sumAngularVelocityW (ps : List Particle) : ℚ :=
  (ps.map getAngVelW).sum

/-- Sum of the linear-acceleration weights over the cloud. -/
def sumLinearAccelerationW (ps : List Particle) : ℚ :=
  (ps.map getLinAccW).sum

/-- All five weight-channel sums are within `1e-5` of `1` — exactly what
the CDF-building phase asserts (lines 528–591). -/
def cdfAssertOk (ps : List Particle) : Prop :=
  |sumPositionW ps - 1| ≤ 1 / 100000 ∧
  |sumOrientationW ps - 1| ≤ 1 / 100000 ∧
  |sumLinearVelocityW ps - 1| ≤ 1 / 100000 ∧
  |sumAngularVelocityW ps - 1| ≤ 1 / 100000 ∧
  |sumLinearAccelerationW ps - 1| ≤ 1 / 100000

/-! ## IMU calibrator (`calibrate_localizer`) -/

/-- `CalibratingImu` of `localization/src/lib.rs` (lines 108–112). -/
structure CalibratingImu where
  count : ℕ
  accel : Vec3
  angular_velocity : Quat
deriving DecidableEq, Repr

/-- One received IMU frame during calibration: the sensor identity (the
`RobotElementRef` key) and the raw measurements. -/
structure ImuSample where
  elem : ℕ
  acceleration : Vec3
  angular_velocity : Quat

/-- One step of the calibration accumulation loop (lines 167–183):
`total_gravity` accumulates the **raw** acceleration; the per-IMU entry is
updated through the hash-map entry API — an existing entry adds the
isometry-transformed acceleration and left-multiplies the angular
velocity, while a **fresh entry stores the raw, untransformed
acceleration** (`CalibratingImu { count: 1, accel: imu.acceleration, .. }`),
exactly as the source does. -/
def calibStep (isoOf : ℕ → Vec3 → Vec3)
    (st : Vec3 × List (ℕ × CalibratingImu)) (s : ImuSample) :
    Vec3 × List (ℕ × CalibratingImu) :=
  let total := vadd st.1 s.acceleration
  match st.2.lookup s.elem with
  | some _ =>
      (total, st.2.map fun ec =>
        if ec.1 = s.elem then
          (ec.1,
            { count := ec.2.count + 1
              accel := vadd ec.2.accel (isoOf s.elem s.acceleration)
              angular_velocity :=
                qmul s.angular_velocity ec.2.angular_velocity })
        else ec)
  | none =>
      (total, st.2 ++ [(s.elem, ⟨1, s.acceleration, s.angular_velocity⟩)])

/-- The calibration accumulation over the samples received during the
calibration interval, in arrival order. -/
def calibAccumulate (isoOf : ℕ → Vec3 → Vec3) (samples : List ImuSample) :
    Vec3 × List (ℕ × CalibratingImu) :=
  samples.foldl (calibStep isoOf) (vzero, [])

/-! ## Statement-level definitions -/

/-- Loop invariant of the particle cloud: fixed size and all five weight
channels summing to exactly `1`. -/
def weightInvariant (N : ℕ) (ps : List Particle) : Prop :=
  ps.length = N ∧ sumPositionW ps = 1 ∧ sumOrientationW ps = 1 ∧
  sumLinearVelocityW ps = 1 ∧ sumAngularVelocityW ps = 1 ∧
  sumLinearAccelerationW ps = 1

/-- `m` is a least element of the list. -/
def isLeastOf {α : Type} [LE α] (m : α) (l : List α) : Prop :=
  m ∈ l ∧ ∀ x ∈ l, m ≤ x

/-- `m` is a greatest element of the list. -/
def isGreatestOf {α : Type} [LE α] (m : α) (l : List α) : Prop :=
  m ∈ l ∧ ∀ x ∈ l, x ≤ m

/-- Total number of point samples accumulated in a frame's cells. -/
def cellsCountSum (cells : List ((ℕ × ℕ) × HeightCell)) : ℕ :=
  (cells.map fun c => c.2.count).sum

/-- The number of mapped points whose 1×1 region fits inside the
`side × side` quadtree area (the points `quadtree_rs` actually stores). -/
def inBoundsCount (b : Bounds) (side : ℕ)
    (pts : List ((ℤ × ℤ) × ℚ)) : ℕ :=
  (pts.filter fun e => decide (inBoundsPt b side e)).length

/-- Invariant of the quadtree-filling loop: keys are distinct, every
stored 1×1 region fits in the `side × side` tree area, every cell holds at
least one sample, and every cell's height sum is bounded by
`count · lo` and `count · hi` (for heights drawn from `[lo, hi]`). -/
def qtInv (side : ℕ) (lo hi : ℚ)
    (cells : List ((ℕ × ℕ) × HeightCell)) : Prop :=
  (cells.map Prod.fst).Nodup ∧
  (∀ kc ∈ cells, kc.1.1 + 1 ≤ side ∧ kc.1.2 + 1 ≤ side) ∧
  (∀ kc ∈ cells, 1 ≤ kc.2.count ∧
    lo * kc.2.count ≤ kc.2.total_height ∧
    kc.2.total_height ≤ hi * kc.2.count)

/-- Exclusive prefix sums of a weight list starting at `acc`: the
cumulative weights the CDF pass stores. -/
def exclPrefixes (acc : ℚ) : List ℚ → List ℚ
  | [] => []
  | w :: ws => acc :: exclPrefixes (acc + w) ws

/-- **Modelled from the spec's description of standard forward inverse-CDF
sampling** (the refinement target of design note §9): the selected parent
index is the least `i` with `u < Σ_{j ≤ i} w_j`, i.e. the unique `i` whose
half-open cumulative interval `[c_i, c_{i+1})` contains `u`. -/
def fwdInvCdfIdx (ws : List ℚ) (u : ℚ) : Option ℕ :=
  (List.range ws.length).find? fun i => decide (u < (ws.take (i + 1)).sum)

/-- Forward inverse-CDF sampling of a value: the value at the forward
index. -/
def fwdInvCdfSelect {α : Type} (vals : List α) (ws : List ℚ) (u : ℚ) :
    Option α :=
  (fwdInvCdfIdx ws u).bind fun i => vals.get? i

/-! ## Helper lemmas -/

lemma list_sum_map_div {α : Type} (l : List α) (f : α → ℚ) (c : ℚ) :
    (l.map fun x => f x / c).sum = (l.map f).sum / c := by
  induction l with
  | nil => simp
  | cons a t ih => simp [ih, add_div]

lemma list_sum_map_const {α : Type} (l : List α) (c : ℚ) :
    (l.map fun _ => c).sum = (l.length : ℚ) * c := by
  induction l with
  | nil => simp
  | cons a t ih =>
      simp only [List.map_cons, List.sum_cons, ih, List.length_cons]
      push_cast
      ring

lemma bumpResample_length {α : Type} (setV : α → Particle → Particle)
    (setW : ℚ → Particle → Particle) (getW : Particle → ℚ) (corr : ℚ)
    (resample : ℕ → α) :
    ∀ (k i : ℕ) (l : List Particle),
      (bumpResample setV setW getW corr resample k i l).length =
        l.length := by
  intro k
  induction k with
  | zero => intro i l; rfl
  | succ kk ih =>
      intro i l
      cases l with
      | nil => rfl
      | cons p t => simpa [bumpResample] using ih (i + 1) t

lemma bumpResample_map_invariant {α : Type} (setV : α → Particle → Particle)
    (setW : ℚ → Particle → Particle) (getW : Particle → ℚ) (corr : ℚ)
    (resample : ℕ → α) {β : Type} (g : Particle → β)
    (hGW : ∀ w p, g (setW w p) = g p)
    (hGV : ∀ v p, g (setV v p) = g p) :
    ∀ (k i : ℕ) (l : List Particle),
      (bumpResample setV setW getW corr resample k i l).map g =
        l.map g := by
  intro k
  induction k with
  | zero => intro i l; rfl
  | succ kk ih =>
      intro i l
      cases l with
      | nil => rfl
      | cons p t => simp [bumpResample, hGW, hGV, ih (i + 1) t]

lemma bumpResample_sum_getW {α : Type} (setV : α → Particle → Particle)
    (setW : ℚ → Particle → Particle) (getW : Particle → ℚ) (corr : ℚ)
    (resample : ℕ → α)
    (hWW : ∀ w p, getW (setW w p) = w) :
    ∀ (k i : ℕ) (l : List Particle), k ≤ l.length →
      ((bumpResample setV setW getW corr resample k i l).map getW).sum =
        (l.map getW).sum + (k : ℚ) * corr := by
  intro k
  induction k with
  | zero => intro i l _; simp [bumpResample]
  | succ kk ih =>
      intro i l hk
      cases l with
      | nil => simp at hk
      | cons p t =>
          have ht : kk ≤ t.length := by
            simpa [Nat.succ_le_succ_iff] using hk
          simp only [bumpResample, List.map_cons, List.sum_cons, hWW,
            ih (i + 1) t ht]
          push_cast
          ring

lemma sortByW_perm (getW : Particle → ℚ) (l : List Particle) :
    List.Perm (sortByW getW l) l :=
  List.perm_insertionSort _ l

lemma reweight_length {α : Type} (getV : Particle → α)
    (getW : Particle → ℚ) (setW : ℚ → Particle → Particle) (dens : α → ℚ)
    (ps : List Particle) :
    (reweight getV getW setW dens ps).length = ps.length :=
  List.length_map _ _

lemma unnormSum_normalizeBy (getW : Particle → ℚ)
    (setW : ℚ → Particle → Particle) (S : ℚ) (l : List Particle)
    (hWW : ∀ w p, getW (setW w p) = w) :
    unnormSum getW (normalizeBy getW setW S l) = unnormSum getW l / S := by
  unfold unnormSum normalizeBy
  rw [List.map_map]
  have hcomp : (getW ∘ fun p => setW (getW p / S) p) =
      fun p => getW p / S := by
    funext p; simp [Function.comp_def, hWW]
  rw [hcomp, list_sum_map_div]

lemma obsUpdateChan_length {α : Type} (getV : Particle → α)
    (setV : α → Particle → Particle) (getW : Particle → ℚ)
    (setW : ℚ → Particle → Particle) (minW undep defaultW variance : ℚ)
    (snapVal : α) (dens : α → ℚ) (resample : ℕ → α) (ps : List Particle) :
    (obsUpdateChan getV setV getW setW minW undep defaultW variance snapVal
      dens resample ps).length = ps.length := by
  unfold obsUpdateChan
  split
  · simp
  · split
    · unfold deprivedList
      rw [normalizeBy, List.length_map, bumpResample_length,
        (sortByW_perm getW _).length_eq, reweight_length]
    · rw [normalizeBy, List.length_map, reweight_length]

lemma obsUpdateChan_sum_getW {α : Type} (getV : Particle → α)
    (setV : α → Particle → Particle) (getW : Particle → ℚ)
    (setW : ℚ → Particle → Particle) (minW undep defaultW variance : ℚ)
    (snapVal : α) (dens : α → ℚ) (resample : ℕ → α) (ps : List Particle)
    (hWW : ∀ w p, getW (setW w p) = w)
    (hps : 0 < ps.length) (hminW : 0 < minW)
    (hundep : 0 < undep) (hundep1 : undep ≤ 1)
    (hdef : defaultW = 1 / (ps.length : ℚ)) :
    ((obsUpdateChan getV setV getW setW minW undep defaultW variance snapVal
      dens resample ps).map getW).sum = 1 := by
  have hlen0 : ((ps.length : ℚ)) ≠ 0 := by
    exact_mod_cast hps.ne'
  unfold obsUpdateChan
  split
  · -- variance = 0: snap branch
    simp only [List.map_map]
    have hcomp : (getW ∘ fun p => setW defaultW (setV snapVal p)) =
        fun _ => defaultW := by
      funext p; simp [Function.comp_def, hWW]
    rw [hcomp, list_sum_map_const, hdef]
    field_simp
  · -- variance ≠ 0
    split
    · -- deprivation triggered
      rename_i hS
      unfold deprivedList
      have hceil : 0 < depriveCount undep ps.length :=
        Int.ceil_pos.mpr (mul_pos (by exact_mod_cast hps) hundep)
      have hkle : depriveCount undep ps.length ≤ (ps.length : ℤ) := by
        rw [depriveCount, Int.ceil_le]
        push_cast
        exact mul_le_of_le_one_right (by positivity) hundep1
      have hkcast : (((depriveCount undep ps.length).toNat : ℚ)) =
          ((depriveCount undep ps.length : ℤ) : ℚ) := by
        exact_mod_cast congrArg (fun z : ℤ => (z : ℚ))
          (Int.toNat_of_nonneg (le_of_lt hceil))
      have hceilQ : ((depriveCount undep ps.length : ℤ) : ℚ) ≠ 0 := by
        exact_mod_cast hceil.ne'
      have hksort : (depriveCount undep ps.length).toNat ≤
          (sortByW getW (reweight getV getW setW dens ps)).length := by
        rw [(sortByW_perm getW _).length_eq, reweight_length]
        exact_mod_cast Int.toNat_le.mpr hkle
      have hsortsum : unnormSum getW
          (sortByW getW (reweight getV getW setW dens ps)) =
          unnormSum getW (reweight getV getW setW dens ps) :=
        ((sortByW_perm getW _).map getW).sum_eq
      have hbump := bumpResample_sum_getW setV setW getW
        ((minW - unnormSum getW (reweight getV getW setW dens ps)) /
          ((depriveCount undep ps.length : ℤ) : ℚ))
        resample hWW (depriveCount undep ps.length).toNat 0
        (sortByW getW (reweight getV getW setW dens ps)) hksort
      have hnorm := unnormSum_normalizeBy getW setW minW
        (bumpResample setV setW getW
          ((minW - unnormSum getW (reweight getV getW setW dens ps)) /
            ((depriveCount undep ps.length : ℤ) : ℚ))
          resample (depriveCount undep ps.length).toNat 0
          (sortByW getW (reweight getV getW setW dens ps))) hWW
      show unnormSum getW _ = 1
      rw [hnorm]
      rw [show unnormSum getW (bumpResample setV setW getW
          ((minW - unnormSum getW (reweight getV getW setW dens ps)) /
            ((depriveCount undep ps.length : ℤ) : ℚ))
          resample (depriveCount undep ps.length).toNat 0
          (sortByW getW (reweight getV getW setW dens ps))) =
          unnormSum getW (sortByW getW (reweight getV getW setW dens ps)) +
          (((depriveCount undep ps.length).toNat : ℚ)) *
          ((minW - unnormSum getW (reweight getV getW setW dens ps)) /
            ((depriveCount undep ps.length : ℤ) : ℚ)) from hbump]
      rw [hsortsum, hkcast]
      field_simp
    · -- not triggered: plain normalization
      rename_i hS
      have hSpos : 0 < unnormSum getW (reweight getV getW setW dens ps) :=
        lt_trans hminW (lt_of_not_le hS)
      show unnormSum getW _ = 1
      rw [unnormSum_normalizeBy getW setW _ _ hWW]
      field_simp

lemma obsUpdateChan_sum_other {α : Type} (getV : Particle → α)
    (setV : α → Particle → Particle) (getW : Particle → ℚ)
    (setW : ℚ → Particle → Particle) (minW undep defaultW variance : ℚ)
    (snapVal : α) (dens : α → ℚ) (resample : ℕ → α) (ps : List Particle)
    (g : Particle → ℚ)
    (hGW : ∀ w p, g (setW w p) = g p)
    (hGV : ∀ v p, g (setV v p) = g p) :
    ((obsUpdateChan getV setV getW setW minW undep defaultW variance snapVal
      dens resample ps).map g).sum = (ps.map g).sum := by
  have hre : (reweight getV getW setW dens ps).map g = ps.map g := by
    unfold reweight
    simp [List.map_map, Function.comp_def, hGW]
  have hnorm : ∀ (S : ℚ) (l : List Particle),
      ((normalizeBy getW setW S l).map g).sum = (l.map g).sum := by
    intro S l
    unfold normalizeBy
    simp [List.map_map, Function.comp_def, hGW]
  unfold obsUpdateChan
  split
  · simp [List.map_map, Function.comp_def, hGW, hGV]
  · split
    · unfold deprivedList
      rw [hnorm, bumpResample_map_invariant _ _ _ _ _ g hGW hGV,
        ((sortByW_perm getW _).map g).sum_eq, hre]
    · rw [hnorm, hre]

lemma predictParticle_weights (gvec : Vec3) (slerpK : Quat → ℚ → Quat)
    (delta : ℚ) (accCdf lvCdf posCdf : List (Vec3 × ℚ))
    (angCdf oriCdf : List (Quat × ℚ)) (r : PredictRand) (p : Particle) :
    (predictParticle gvec slerpK delta accCdf lvCdf posCdf angCdf oriCdf
      r p).position_weight = p.position_weight ∧
    (predictParticle gvec slerpK delta accCdf lvCdf posCdf angCdf oriCdf
      r p).orientation_weight = p.orientation_weight ∧
    (predictParticle gvec slerpK delta accCdf lvCdf posCdf angCdf oriCdf
      r p).linear_velocity_weight = p.linear_velocity_weight ∧
    (predictParticle gvec slerpK delta accCdf lvCdf posCdf angCdf oriCdf
      r p).angular_velocity_weight = p.angular_velocity_weight ∧
    (predictParticle gvec slerpK delta accCdf lvCdf posCdf angCdf oriCdf
      r p).linear_acceleration_weight = p.linear_acceleration_weight := by
  unfold predictParticle
  repeat' split
  all_goals simp

lemma predict_length (gvec : Vec3) (slerpK : Quat → ℚ → Quat) (delta : ℚ)
    (rands : ℕ → PredictRand) (ps : List Particle) :
    (predict gvec slerpK delta rands ps).length = ps.length := by
  unfold predict
  rw [List.length_map, List.enum_length]

lemma predict_map_weight (gvec : Vec3) (slerpK : Quat → ℚ → Quat)
    (delta : ℚ) (rands : ℕ → PredictRand) (ps : List Particle)
    (g : Particle → ℚ)
    (hg : ∀ (r : PredictRand) (p : Particle) accCdf lvCdf posCdf angCdf
      oriCdf, g (predictParticle gvec slerpK delta accCdf lvCdf posCdf
        angCdf oriCdf r p) = g p) :
    (predict gvec slerpK delta rands ps).map g = ps.map g := by
  unfold predict
  set c1 := exclCdf (fun p => p.linear_acceleration)
    (fun p => p.linear_acceleration_weight) 0 ps with hc1
  set c2 := exclCdf (fun p => p.linear_velocity)
    (fun p => p.linear_velocity_weight) 0 ps with hc2
  set c3 := exclCdf (fun p => p.position)
    (fun p => p.position_weight) 0 ps with hc3
  set c4 := exclCdf (fun p => p.angular_velocity)
    (fun p => p.angular_velocity_weight) 0 ps with hc4
  set c5 := exclCdf (fun p => p.orientation)
    (fun p => p.orientation_weight) 0 ps with hc5
  rw [List.map_map]
  have h1 : ∀ ip ∈ ps.enum,
      (g ∘ fun ip : ℕ × Particle =>
        predictParticle gvec slerpK delta c1 c2 c3 c4 c5
          (rands ip.1) ip.2) ip = (g ∘ Prod.snd) ip := by
    intro ip _
    simp [Function.comp_def, hg]
  rw [List.map_congr_left h1, ← List.map_map, List.enum,
    List.enumFrom_map_snd]

lemma updPosition_invariant (minW undep defaultW variance : ℚ)
    (snapVal : Vec3) (dens : Vec3 → ℚ) (resample : ℕ → Vec3) (N : ℕ)
    (ps : List Particle) (hN : 0 < N) (hminW : 0 < minW)
    (hundep : 0 < undep) (hundep1 : undep ≤ 1)
    (hdef : defaultW = 1 / (N : ℚ)) (h : weightInvariant N ps) :
    weightInvariant N
      (updPosition minW undep defaultW variance snapVal dens resample ps) := by
  obtain ⟨hlen, h1, h2, h3, h4, h5⟩ := h
  refine ⟨?_, ?_, ?_, ?_, ?_, ?_⟩
  · rw [updPosition, obsUpdateChan_length, hlen]
  · exact obsUpdateChan_sum_getW getPos setPos getPosW setPosW minW undep
      defaultW variance snapVal dens resample ps (fun _ _ => rfl)
      (hlen ▸ hN) hminW hundep hundep1 (by rw [hlen]; exact hdef)
  · rw [sumOrientationW, updPosition,
      obsUpdateChan_sum_other getPos setPos getPosW setPosW minW undep
        defaultW variance snapVal dens resample ps getOriW
        (fun _ _ => rfl) (fun _ _ => rfl)]
    exact h2
  · rw [sumLinearVelocityW, updPosition,
      obsUpdateChan_sum_other getPos setPos getPosW setPosW minW undep
        defaultW variance snapVal dens resample ps getLinVelW
        (fun _ _ => rfl) (fun _ _ => rfl)]
    exact h3
  · rw [sumAngularVelocityW, updPosition,
      obsUpdateChan_sum_other getPos setPos getPosW setPosW minW undep
        defaultW variance snapVal dens resample ps getAngVelW
        (fun _ _ => rfl) (fun _ _ => rfl)]
    exact h4
  · rw [sumLinearAccelerationW, updPosition,
      obsUpdateChan_sum_other getPos setPos getPosW setPosW minW undep
        defaultW variance snapVal dens resample ps getLinAccW
        (fun _ _ => rfl) (fun _ _ => rfl)]
    exact h5

lemma updOrientation_invariant (minW undep defaultW variance : ℚ)
    (snapVal : Quat) (dens : Quat → ℚ) (resample : ℕ → Quat) (N : ℕ)
    (ps : List Particle) (hN : 0 < N) (hminW : 0 < minW)
    (hundep : 0 < undep) (hundep1 : undep ≤ 1)
    (hdef : defaultW = 1 / (N : ℚ)) (h : weightInvariant N ps) :
    weightInvariant N
      (updOrientation minW undep defaultW variance snapVal dens resample
        ps) := by
  obtain ⟨hlen, h1, h2, h3, h4, h5⟩ := h
  refine ⟨?_, ?_, ?_, ?_, ?_, ?_⟩
  · rw [updOrientation, obsUpdateChan_length, hlen]
  · rw [sumPositionW, updOrientation,
      obsUpdateChan_sum_other getOri setOri getOriW setOriW minW undep
        defaultW variance snapVal dens resample ps getPosW
        (fun _ _ => rfl) (fun _ _ => rfl)]
    exact h1
  · exact obsUpdateChan_sum_getW getOri setOri getOriW setOriW minW undep
      defaultW variance snapVal dens resample ps (fun _ _ => rfl)
      (hlen ▸ hN) hminW hundep hundep1 (by rw [hlen]; exact hdef)
  · rw [sumLinearVelocityW, updOrientation,
      obsUpdateChan_sum_other getOri setOri getOriW setOriW minW undep
        defaultW variance snapVal dens resample ps getLinVelW
        (fun _ _ => rfl) (fun _ _ => rfl)]
    exact h3
  · rw [sumAngularVelocityW, updOrientation,
      obsUpdateChan_sum_other getOri setOri getOriW setOriW minW undep
        defaultW variance snapVal dens resample ps getAngVelW
        (fun _ _ => rfl) (fun _ _ => rfl)]
    exact h4
  · rw [sumLinearAccelerationW, updOrientation,
      obsUpdateChan_sum_other getOri setOri getOriW setOriW minW undep
        defaultW variance snapVal dens resample ps getLinAccW
        (fun _ _ => rfl) (fun _ _ => rfl)]
    exact h5

lemma updLinearVelocity_invariant (minW undep defaultW variance : ℚ)
    (snapVal : Vec3) (dens : Vec3 → ℚ) (resample : ℕ → Vec3) (N : ℕ)
    (ps : List Particle) (hN : 0 < N) (hminW : 0 < minW)
    (hundep : 0 < undep) (hundep1 : undep ≤ 1)
    (hdef : defaultW = 1 / (N : ℚ)) (h : weightInvariant N ps) :
    weightInvariant N
      (updLinearVelocity minW undep defaultW variance snapVal dens resample
        ps) := by
  obtain ⟨hlen, h1, h2, h3, h4, h5⟩ := h
  refine ⟨?_, ?_, ?_, ?_, ?_, ?_⟩
  · rw [updLinearVelocity, obsUpdateChan_length, hlen]
  · rw [sumPositionW, updLinearVelocity,
      obsUpdateChan_sum_other getLinVel setLinVel getLinVelW setLinVelW
        minW undep defaultW variance snapVal dens resample ps getPosW
        (fun _ _ => rfl) (fun _ _ => rfl)]
    exact h1
  · rw [sumOrientationW, updLinearVelocity,
      obsUpdateChan_sum_other getLinVel setLinVel getLinVelW setLinVelW
        minW undep defaultW variance snapVal dens resample ps getOriW
        (fun _ _ => rfl) (fun _ _ => rfl)]
    exact h2
  · exact obsUpdateChan_sum_getW getLinVel setLinVel getLinVelW setLinVelW
      minW undep defaultW variance snapVal dens resample ps
      (fun _ _ => rfl) (hlen ▸ hN) hminW hundep hundep1
      (by rw [hlen]; exact hdef)
  · rw [sumAngularVelocityW, updLinearVelocity,
      obsUpdateChan_sum_other getLinVel setLinVel getLinVelW setLinVelW
        minW undep defaultW variance snapVal dens resample ps getAngVelW
        (fun _ _ => rfl) (fun _ _ => rfl)]
    exact h4
  · rw [sumLinearAccelerationW, updLinearVelocity,
      obsUpdateChan_sum_other getLinVel setLinVel getLinVelW setLinVelW
        minW undep defaultW variance snapVal dens resample ps getLinAccW
        (fun _ _ => rfl) (fun _ _ => rfl)]
    exact h5

lemma updAngularVelocity_invariant (minW undep defaultW variance : ℚ)
    (snapVal : Quat) (dens : Quat → ℚ) (resample : ℕ → Quat) (N : ℕ)
    (ps : List Particle) (hN : 0 < N) (hminW : 0 < minW)
    (hundep : 0 < undep) (hundep1 : undep ≤ 1)
    (hdef : defaultW = 1 / (N : ℚ)) (h : weightInvariant N ps) :
    weightInvariant N
      (updAngularVelocity minW undep defaultW variance snapVal dens
        resample ps) := by
  obtain ⟨hlen, h1, h2, h3, h4, h5⟩ := h
  refine ⟨?_, ?_, ?_, ?_, ?_, ?_⟩
  · rw [updAngularVelocity, obsUpdateChan_length, hlen]
  · rw [sumPositionW, updAngularVelocity,
      obsUpdateChan_sum_other getAngVel setAngVel getAngVelW setAngVelW
        minW undep defaultW variance snapVal dens resample ps getPosW
        (fun _ _ => rfl) (fun _ _ => rfl)]
    exact h1
  · rw [sumOrientationW, updAngularVelocity,
      obsUpdateChan_sum_other getAngVel setAngVel getAngVelW setAngVelW
        minW undep defaultW variance snapVal dens resample ps getOriW
        (fun _ _ => rfl) (fun _ _ => rfl)]
    exact h2
  · rw [sumLinearVelocityW, updAngularVelocity,
      obsUpdateChan_sum_other getAngVel setAngVel getAngVelW setAngVelW
        minW undep defaultW variance snapVal dens resample ps getLinVelW
        (fun _ _ => rfl) (fun _ _ => rfl)]
    exact h3
  · exact obsUpdateChan_sum_getW getAngVel setAngVel getAngVelW setAngVelW
      minW undep defaultW variance snapVal dens resample ps
      (fun _ _ => rfl) (hlen ▸ hN) hminW hundep hundep1
      (by rw [hlen]; exact hdef)
  · rw [sumLinearAccelerationW, updAngularVelocity,
      obsUpdateChan_sum_other getAngVel setAngVel getAngVelW setAngVelW
        minW undep defaultW variance snapVal dens resample ps getLinAccW
        (fun _ _ => rfl) (fun _ _ => rfl)]
    exact h5

lemma updLinearAcceleration_invariant (minW undep defaultW variance : ℚ)
    (snapVal : Vec3) (dens : Vec3 → ℚ) (resample : ℕ → Vec3) (N : ℕ)
    (ps : List Particle) (hN : 0 < N) (hminW : 0 < minW)
    (hundep : 0 < undep) (hundep1 : undep ≤ 1)
    (hdef : defaultW = 1 / (N : ℚ)) (h : weightInvariant N ps) :
    weightInvariant N
      (updLinearAcceleration minW undep defaultW variance snapVal dens
        resample ps) := by
  obtain ⟨hlen, h1, h2, h3, h4, h5⟩ := h
  refine ⟨?_, ?_, ?_, ?_, ?_, ?_⟩
  · rw [updLinearAcceleration, obsUpdateChan_length, hlen]
  · rw [sumPositionW, updLinearAcceleration,
      obsUpdateChan_sum_other getLinAcc setLinAcc getLinAccW setLinAccW
        minW undep defaultW variance snapVal dens resample ps getPosW
        (fun _ _ => rfl) (fun _ _ => rfl)]
    exact h1
  · rw [sumOrientationW, updLinearAcceleration,
      obsUpdateChan_sum_other getLinAcc setLinAcc getLinAccW setLinAccW
        minW undep defaultW variance snapVal dens resample ps getOriW
        (fun _ _ => rfl) (fun _ _ => rfl)]
    exact h2
  · rw [sumLinearVelocityW, updLinearAcceleration,
      obsUpdateChan_sum_other getLinAcc setLinAcc getLinAccW setLinAccW
        minW undep defaultW variance snapVal dens resample ps getLinVelW
        (fun _ _ => rfl) (fun _ _ => rfl)]
    exact h3
  · rw [sumAngularVelocityW, updLinearAcceleration,
      obsUpdateChan_sum_other getLinAcc setLinAcc getLinAccW setLinAccW
        minW undep defaultW variance snapVal dens resample ps getAngVelW
        (fun _ _ => rfl) (fun _ _ => rfl)]
    exact h4
  · exact obsUpdateChan_sum_getW getLinAcc setLinAcc getLinAccW setLinAccW
      minW undep defaultW variance snapVal dens resample ps
      (fun _ _ => rfl) (hlen ▸ hN) hminW hundep hundep1
      (by rw [hlen]; exact hdef)

lemma predict_invariant (gvec : Vec3) (slerpK : Quat → ℚ → Quat)
    (delta : ℚ) (rands : ℕ → PredictRand) (N : ℕ) (ps : List Particle)
    (h : weightInvariant N ps) :
    weightInvariant N (predict gvec slerpK delta rands ps) := by
  obtain ⟨hlen, h1, h2, h3, h4, h5⟩ := h
  refine ⟨?_, ?_, ?_, ?_, ?_, ?_⟩
  · rw [predict_length, hlen]
  · rw [sumPositionW, predict_map_weight gvec slerpK delta rands ps getPosW
      (fun r p c1 c2 c3 c4 c5 =>
        (predictParticle_weights gvec slerpK delta c1 c2 c3 c4 c5 r p).1)]
    exact h1
  · rw [sumOrientationW, predict_map_weight gvec slerpK delta rands ps
      getOriW (fun r p c1 c2 c3 c4 c5 =>
        (predictParticle_weights gvec slerpK delta c1 c2 c3 c4 c5
          r p).2.1)]
    exact h2
  · rw [sumLinearVelocityW, predict_map_weight gvec slerpK delta rands ps
      getLinVelW (fun r p c1 c2 c3 c4 c5 =>
        (predictParticle_weights gvec slerpK delta c1 c2 c3 c4 c5
          r p).2.2.1)]
    exact h3
  · rw [sumAngularVelocityW, predict_map_weight gvec slerpK delta rands ps
      getAngVelW (fun r p c1 c2 c3 c4 c5 =>
        (predictParticle_weights gvec slerpK delta c1 c2 c3 c4 c5
          r p).2.2.2.1)]
    exact h4
  · rw [sumLinearAccelerationW, predict_map_weight gvec slerpK delta rands
      ps getLinAccW (fun r p c1 c2 c3 c4 c5 =>
        (predictParticle_weights gvec slerpK delta c1 c2 c3 c4 c5
          r p).2.2.2.2)]
    exact h5

lemma afterObs_invariant (minW undep defaultW : ℚ) (N : ℕ) (e : LocEvent)
    (ps : List Particle) (hN : 0 < N) (hminW : 0 < minW)
    (hundep : 0 < undep) (hundep1 : undep ≤ 1)
    (hdef : defaultW = 1 / (N : ℚ)) (h : weightInvariant N ps) :
    weightInvariant N (afterObs minW undep defaultW e ps) := by
  cases e with
  | timeout => exact h
  | imu accVar accVal accDens accNoise angVar angVal angDens angNoise =>
      exact updAngularVelocity_invariant _ _ _ _ _ _ _ N _ hN hminW hundep
        hundep1 hdef
        (updLinearAcceleration_invariant _ _ _ _ _ _ _ N _ hN hminW hundep
          hundep1 hdef h)
  | position variance rawPos isoInv dens noise =>
      exact updPosition_invariant _ _ _ _ _ _ _ N _ hN hminW hundep
        hundep1 hdef h
  | velocity variance val dens noise =>
      exact updLinearVelocity_invariant _ _ _ _ _ _ _ N _ hN hminW hundep
        hundep1 hdef h
  | orientation variance rawOri invRot dens noise =>
      exact updOrientation_invariant _ _ _ _ _ _ _ N _ hN hminW hundep
        hundep1 hdef h

lemma runLoc_invariant (P : LocParams) (N : ℕ) (steps : List IterStep)
    (ps : List Particle) (hN : 0 < N) (hminW : 0 < P.minW)
    (hundep : 0 < P.undep) (hundep1 : P.undep ≤ 1)
    (hdef : P.defaultW = 1 / (N : ℚ)) (h : weightInvariant N ps) :
    weightInvariant N (runLoc P steps ps) := by
  induction steps generalizing ps with
  | nil => exact h
  | cons s rest ih =>
      have h1 := afterObs_invariant P.minW P.undep P.defaultW N s.event ps
        hN hminW hundep hundep1 hdef h
      have h2 := predict_invariant P.gvec P.slerpK s.delta s.rands N _ h1
      exact ih _ h2

lemma sum_of_const_weights (ps : List Particle) (g : Particle → ℚ) (c : ℚ)
    (h : ∀ p ∈ ps, g p = c) : (ps.map g).sum = (ps.length : ℚ) * c := by
  rw [List.map_congr_left h, list_sum_map_const]

/-- **C2.**  For every iteration of the steady-state localizer loop and
each of the five weight channels, after the observation update the sum of
that channel's weights over all particles is within `1e-5` of `1` (in the
exact-arithmetic model it equals `1`), so the assertion of the
CDF-building phase can never fire: starting from the initial cloud (every
weight `default_weight = 1/N`), after any number of loop iterations and
the observation update of the current iteration, `cdfAssertOk` holds. -/
theorem c2_weight_sums_one (P : LocParams) (N : ℕ) (ps0 : List Particle)
    (steps : List IterStep) (e : LocEvent)
    (hN : 0 < N) (hminW : 0 < P.minW) (hundep : 0 < P.undep)
    (hundep1 : P.undep ≤ 1) (hdef : P.defaultW = 1 / (N : ℚ))
    (hlen : ps0.length = N)
    (hw : ∀ p ∈ ps0, getPosW p = P.defaultW ∧ getOriW p = P.defaultW ∧
      getLinVelW p = P.defaultW ∧ getAngVelW p = P.defaultW ∧
      getLinAccW p = P.defaultW) :
    cdfAssertOk (afterObs P.minW P.undep P.defaultW e
      (runLoc P steps ps0)) := by
  have hNQ : ((N : ℚ)) ≠ 0 := by exact_mod_cast hN.ne'
  have hone : ∀ g : Particle → ℚ, (∀ p ∈ ps0, g p = P.defaultW) →
      (ps0.map g).sum = 1 := by
    intro g hg
    rw [sum_of_const_weights ps0 g P.defaultW hg, hlen, hdef]
    field_simp
  have h0 : weightInvariant N ps0 := by
    refine ⟨hlen, ?_, ?_, ?_, ?_, ?_⟩
    · exact hone getPosW fun p hp => (hw p hp).1
    · exact hone getOriW fun p hp => (hw p hp).2.1
    · exact hone getLinVelW fun p hp => (hw p hp).2.2.1
    · exact hone getAngVelW fun p hp => (hw p hp).2.2.2.1
    · exact hone getLinAccW fun p hp => (hw p hp).2.2.2.2
  have h1 := runLoc_invariant P N steps ps0 hN hminW hundep hundep1 hdef h0
  have h2 := afterObs_invariant P.minW P.undep P.defaultW N e _ hN hminW
    hundep hundep1 hdef h1
  obtain ⟨_, s1, s2, s3, s4, s5⟩ := h2
  refine ⟨?_, ?_, ?_, ?_, ?_⟩
  · rw [s1]; norm_num
  · rw [s2]; norm_num
  · rw [s3]; norm_num
  · rw [s4]; norm_num
  · rw [s5]; norm_num

/-- Witness for C2: two particles with all weights `1/2`, one prior
iteration and a position observation with variance `1` and constant
density. -/
theorem c2_weight_sums_one_witness :
    cdfAssertOk (afterObs (3 / 5) (1 / 20) (1 / 2)
      (LocEvent.position 1 ⟨1, 2, 3⟩ (fun v => v) (fun _ => 1)
        (fun _ => vzero))
      (runLoc ⟨3 / 5, 1 / 20, 1 / 2, vzero, fun _ _ => qone⟩ []
        [⟨vzero, 1 / 2, qone, 1 / 2, vzero, 1 / 2, qone, 1 / 2, vzero,
          1 / 2⟩,
         ⟨⟨1, 0, 0⟩, 1 / 2, qone, 1 / 2, vzero, 1 / 2, qone, 1 / 2, vzero,
          1 / 2⟩])) :=
  c2_weight_sums_one ⟨3 / 5, 1 / 20, 1 / 2, vzero, fun _ _ => qone⟩ 2
    [⟨vzero, 1 / 2, qone, 1 / 2, vzero, 1 / 2, qone, 1 / 2, vzero,
      1 / 2⟩,
     ⟨⟨1, 0, 0⟩, 1 / 2, qone, 1 / 2, vzero, 1 / 2, qone, 1 / 2, vzero,
      1 / 2⟩] []
    (LocEvent.position 1 ⟨1, 2, 3⟩ (fun v => v) (fun _ => 1)
      (fun _ => vzero))
    (by decide) (by decide) (by decide) (by decide) (by decide)
    (by decide) (by decide)

lemma bumpResample_getElem_lt {α : Type} (setV : α → Particle → Particle)
    (setW : ℚ → Particle → Particle) (getW : Particle → ℚ) (corr : ℚ)
    (resample : ℕ → α) :
    ∀ (k j i : ℕ) (l : List Particle), i < k →
      (bumpResample setV setW getW corr resample k j l)[i]? =
        (l[i]?).map fun p => setW (getW p + corr) (setV (resample (j + i))
          p) := by
  intro k
  induction k with
  | zero => intro j i l hi; omega
  | succ kk ih =>
      intro j i l hi
      cases l with
      | nil => simp [bumpResample]
      | cons p t =>
          cases i with
          | zero => simp [bumpResample]
          | succ ii =>
              have hii : ii < kk := by omega
              have := ih (j + 1) ii t hii
              simpa [bumpResample, Nat.add_assoc, Nat.add_comm 1 ii] using
                this

lemma bumpResample_getElem_ge {α : Type} (setV : α → Particle → Particle)
    (setW : ℚ → Particle → Particle) (getW : Particle → ℚ) (corr : ℚ)
    (resample : ℕ → α) :
    ∀ (k j i : ℕ) (l : List Particle), k ≤ i →
      (bumpResample setV setW getW corr resample k j l)[i]? = l[i]? := by
  intro k
  induction k with
  | zero => intro j i l _; rw [bumpResample]
  | succ kk ih =>
      intro j i l hi
      cases l with
      | nil => simp [bumpResample]
      | cons p t =>
          cases i with
          | zero => omega
          | succ ii =>
              have hii : kk ≤ ii := by omega
              simpa [bumpResample] using ih (j + 1) ii t hii

/-- **C3.**  In every observation update with nonzero variance (any of the
five channels, via the channel lenses), deprivation recovery runs iff the
post-multiplication unnormalized sum `S` satisfies
`S ≤ minimum_unnormalized_weight`: otherwise the update is plain
normalization by `S` with no sorting or resampling; when it runs, the
particles are sorted ascending by the channel weight, exactly
`k = ⌈N · undeprivation_factor⌉` (with `1 ≤ k ≤ N`) lowest-weight
particles get their channel value resampled (`resample i`, instantiated as
observation value plus noise by `afterObs`) and their weight increased by
`(minimum_unnormalized_weight − S) / k`, the rest are untouched, and the
resulting unnormalized sum equals `minimum_unnormalized_weight` — the
value used for the final normalization. -/
theorem c3_deprivation_recovery {α : Type} (getV : Particle → α)
    (setV : α → Particle → Particle) (getW : Particle → ℚ)
    (setW : ℚ → Particle → Particle) (minW undep defaultW variance : ℚ)
    (snapVal : α) (dens : α → ℚ) (resample : ℕ → α) (ps : List Particle)
    (hWW : ∀ w p, getW (setW w p) = w)
    (hvar : variance ≠ 0) (hps : 0 < ps.length)
    (hundep : 0 < undep) (hundep1 : undep ≤ 1) :
    (¬ unnormSum getW (reweight getV getW setW dens ps) ≤ minW →
      obsUpdateChan getV setV getW setW minW undep defaultW variance
        snapVal dens resample ps =
      normalizeBy getW setW
        (unnormSum getW (reweight getV getW setW dens ps))
        (reweight getV getW setW dens ps)) ∧
    (unnormSum getW (reweight getV getW setW dens ps) ≤ minW →
      List.Sorted (fun a b => getW a ≤ getW b)
        (sortByW getW (reweight getV getW setW dens ps)) ∧
      List.Perm (sortByW getW (reweight getV getW setW dens ps))
        (reweight getV getW setW dens ps) ∧
      1 ≤ (depriveCount undep ps.length).toNat ∧
      (depriveCount undep ps.length).toNat ≤ ps.length ∧
      (∀ i : ℕ, i < (depriveCount undep ps.length).toNat →
        (deprivedList getV setV getW setW minW undep dens resample
          ps)[i]? =
        ((sortByW getW (reweight getV getW setW dens ps))[i]?).map
          fun p => setW (getW p +
            (minW - unnormSum getW (reweight getV getW setW dens ps)) /
              (((depriveCount undep ps.length).toNat : ℚ)))
            (setV (resample i) p)) ∧
      (∀ i : ℕ, (depriveCount undep ps.length).toNat ≤ i →
        (deprivedList getV setV getW setW minW undep dens resample
          ps)[i]? =
        (sortByW getW (reweight getV getW setW dens ps))[i]?) ∧
      unnormSum getW
        (deprivedList getV setV getW setW minW undep dens resample ps) =
        minW ∧
      obsUpdateChan getV setV getW setW minW undep defaultW variance
        snapVal dens resample ps =
      normalizeBy getW setW minW
        (deprivedList getV setV getW setW minW undep dens resample ps)) := by
  have hceil : 0 < depriveCount undep ps.length :=
    Int.ceil_pos.mpr (mul_pos (by exact_mod_cast hps) hundep)
  have hkle : depriveCount undep ps.length ≤ (ps.length : ℤ) := by
    rw [depriveCount, Int.ceil_le]
    push_cast
    exact mul_le_of_le_one_right (by positivity) hundep1
  have hkcast : (((depriveCount undep ps.length).toNat : ℚ)) =
      ((depriveCount undep ps.length : ℤ) : ℚ) := by
    exact_mod_cast congrArg (fun z : ℤ => (z : ℚ))
      (Int.toNat_of_nonneg (le_of_lt hceil))
  have hceilQ : ((depriveCount undep ps.length : ℤ) : ℚ) ≠ 0 := by
    exact_mod_cast hceil.ne'
  have hksort : (depriveCount undep ps.length).toNat ≤
      (sortByW getW (reweight getV getW setW dens ps)).length := by
    rw [(sortByW_perm getW _).length_eq, reweight_length]
    exact_mod_cast Int.toNat_le.mpr hkle
  constructor
  · intro hS
    unfold obsUpdateChan
    rw [if_neg hvar, if_neg hS]
  · intro hS
    refine ⟨?_, sortByW_perm getW _, ?_, ?_, ?_, ?_, ?_, ?_⟩
    · unfold sortByW
      haveI : IsTotal Particle (fun a b => getW a ≤ getW b) :=
        ⟨fun a b => le_total (getW a) (getW b)⟩
      haveI : IsTrans Particle (fun a b => getW a ≤ getW b) :=
        ⟨fun _ _ _ hab hbc => le_trans hab hbc⟩
      exact List.sorted_insertionSort _ _
    · omega
    · exact_mod_cast Int.toNat_le.mpr hkle
    · intro i hi
      rw [hkcast]
      unfold deprivedList
      have := bumpResample_getElem_lt setV setW getW
        ((minW - unnormSum getW (reweight getV getW setW dens ps)) /
          ((depriveCount undep ps.length : ℤ) : ℚ))
        resample (depriveCount undep ps.length).toNat 0 i
        (sortByW getW (reweight getV getW setW dens ps)) hi
      simpa using this
    · intro i hi
      unfold deprivedList
      exact bumpResample_getElem_ge setV setW getW _ resample _ 0 i _ hi
    · unfold deprivedList unnormSum
      rw [bumpResample_sum_getW setV setW getW _ resample hWW _ 0 _ hksort,
        hkcast]
      have hsortsum : ((sortByW getW
          (reweight getV getW setW dens ps)).map getW).sum =
          unnormSum getW (reweight getV getW setW dens ps) :=
        ((sortByW_perm getW _).map getW).sum_eq
      rw [hsortsum]
      unfold unnormSum
      field_simp
    · unfold obsUpdateChan
      rw [if_neg hvar, if_pos hS]

/-- Witness for C3: two particles, position channel, zero density, so the
unnormalized sum `0` triggers recovery; with `undeprivation_factor = 1/2`
exactly `k = 1` particle is perturbed and the recovered sum is
`minimum_unnormalized_weight = 3/5`. -/
theorem c3_deprivation_recovery_witness :
    unnormSum getPosW (deprivedList getPos setPos getPosW setPosW (3 / 5)
      (1 / 2) (fun _ => 0) (fun _ => (⟨9, 9, 9⟩ : Vec3))
      [⟨vzero, 1 / 2, qone, 1 / 2, vzero, 1 / 2, qone, 1 / 2, vzero,
        1 / 2⟩,
       ⟨⟨1, 0, 0⟩, 1 / 2, qone, 1 / 2, vzero, 1 / 2, qone, 1 / 2, vzero,
        1 / 2⟩]) = 3 / 5 :=
  ((c3_deprivation_recovery getPos setPos getPosW setPosW (3 / 5) (1 / 2)
      (1 / 2) 1 ⟨0, 0, 0⟩ (fun _ => 0) (fun _ => (⟨9, 9, 9⟩ : Vec3))
      [⟨vzero, 1 / 2, qone, 1 / 2, vzero, 1 / 2, qone, 1 / 2, vzero,
        1 / 2⟩,
       ⟨⟨1, 0, 0⟩, 1 / 2, qone, 1 / 2, vzero, 1 / 2, qone, 1 / 2, vzero,
        1 / 2⟩]
      (fun _ _ => rfl) (by decide) (by decide) (by decide)
      (by decide)).2 (by decide)).2.2.2.2.2.2.1

/-- **C4 (amended).**  For every observation frame with variance exactly
zero, the observation update itself sets every particle's corresponding
channel value to the (base-frame-transformed) observed value and resets
that channel's weight to `default_weight = 1/N` — in particular,
immediately after the observation update of a position frame with
variance `0` (i.e. before the prediction step of the same iteration),
every particle has `position = isoInv rawPos`.  (After the full iteration
the prediction step overwrites `position` with
`sampled_position + sampled_velocity · Δt`; see the counterexample.) -/
theorem c4_variance_zero_snap {α : Type} (getV : Particle → α)
    (setV : α → Particle → Particle) (getW : Particle → ℚ)
    (setW : ℚ → Particle → Particle) (minW undep defaultW : ℚ)
    (snapVal : α) (dens : α → ℚ) (resample : ℕ → α)
    (rawPos : Vec3) (isoInv : Vec3 → Vec3) (densP : Vec3 → ℚ)
    (noise : ℕ → Vec3) (ps : List Particle)
    (hVV : ∀ v p, getV (setV v p) = v)
    (hVW : ∀ w p, getV (setW w p) = getV p)
    (hWW : ∀ w p, getW (setW w p) = w) :
    (∀ p ∈ obsUpdateChan getV setV getW setW minW undep defaultW 0
        snapVal dens resample ps,
      getV p = snapVal ∧ getW p = defaultW) ∧
    (∀ p ∈ afterObs minW undep defaultW
        (LocEvent.position 0 rawPos isoInv densP noise) ps,
      getPos p = isoInv rawPos ∧ getPosW p = defaultW) := by
  have hgen : ∀ {β : Type} (gV : Particle → β)
      (sV : β → Particle → Particle) (gW : Particle → ℚ)
      (sW : ℚ → Particle → Particle) (sv : β) (d : β → ℚ)
      (rs : ℕ → β),
      (∀ v p, gV (sV v p) = v) → (∀ w p, gV (sW w p) = gV p) →
      (∀ w p, gW (sW w p) = w) →
      ∀ p ∈ obsUpdateChan gV sV gW sW minW undep defaultW 0 sv d rs ps,
        gV p = sv ∧ gW p = defaultW := by
    intro β gV sV gW sW sv d rs hVV' hVW' hWW' p hp
    unfold obsUpdateChan at hp
    rw [if_pos rfl] at hp
    obtain ⟨q, _, rfl⟩ := List.mem_map.mp hp
    exact ⟨by rw [hVW', hVV'], hWW' _ _⟩
  refine ⟨hgen getV setV getW setW snapVal dens resample hVV hVW hWW, ?_⟩
  intro p hp
  exact hgen getPos setPos getPosW setPosW (isoInv rawPos) densP
    (fun i => vadd (isoInv rawPos) (noise i)) (fun _ _ => rfl)
    (fun _ _ => rfl) (fun _ _ => rfl) p hp

/-- Witness for the amended C4: one particle, position frame with
variance `0`; after the observation update the particle sits exactly at
the transformed observation with weight `1`. -/
theorem c4_variance_zero_snap_witness :
    getPos (⟨⟨2, 2, 2⟩, 1, qone, 1, ⟨1, 0, 0⟩, 1, qone, 1, vzero, 1⟩ :
      Particle) = (fun v => v) (⟨2, 2, 2⟩ : Vec3) ∧
    getPosW (⟨⟨2, 2, 2⟩, 1, qone, 1, ⟨1, 0, 0⟩, 1, qone, 1, vzero, 1⟩ :
      Particle) = 1 :=
  (c4_variance_zero_snap getPos setPos getPosW setPosW (3 / 5) (1 / 20) 1
    (⟨2, 2, 2⟩ : Vec3) (fun _ => 1) (fun _ => vzero) ⟨2, 2, 2⟩
    (fun v => v) (fun _ => 1) (fun _ => vzero)
    [⟨⟨0, 0, 0⟩, 1, qone, 1, ⟨1, 0, 0⟩, 1, qone, 1, vzero, 1⟩]
    (fun _ _ => rfl) (fun _ _ => rfl) (fun _ _ => rfl)).2
    ⟨⟨2, 2, 2⟩, 1, qone, 1, ⟨1, 0, 0⟩, 1, qone, 1, vzero, 1⟩ (by decide)

/-- **C4 (counterexample).**  The claim's "after one iteration … every
particle has `position = p`" is false on the code: with one particle whose
linear velocity is `(1,0,0)`, a position frame with variance `0` at
`p = (2,2,2)`, and `Δt = 1`, the full iteration (observation update
followed by the prediction step) leaves the particle at
`(3,2,2) = p + v·Δt ≠ p`. -/
theorem c4_one_iteration_counterexample :
    (runLoc ⟨3 / 5, 1 / 20, 1, vzero, fun _ _ => qone⟩
      [⟨LocEvent.position 0 ⟨2, 2, 2⟩ (fun v => v) (fun _ => 1)
          (fun _ => vzero), 1,
        fun _ => ⟨0, 0, 0, 0, vzero, 0, 0, qone⟩⟩]
      [⟨⟨0, 0, 0⟩, 1, qone, 1, ⟨1, 0, 0⟩, 1, qone, 1, vzero, 1⟩]).map
      getPos = [⟨3, 2, 2⟩] ∧
    (⟨3, 2, 2⟩ : Vec3) ≠ ⟨2, 2, 2⟩ := by
  constructor
  · decide
  · decide

lemma exclPrefixes_shift (acc : ℚ) (ws : List ℚ) :
    exclPrefixes acc ws = (exclPrefixes 0 ws).map fun c => c + acc := by
  induction ws generalizing acc with
  | nil => rfl
  | cons w ws ih =>
      show acc :: exclPrefixes (acc + w) ws =
        (0 :: exclPrefixes (0 + w) ws).map fun c => c + acc
      simp only [zero_add, List.map_cons]
      rw [ih (acc + w), ih w, List.map_map]
      congr 1
      apply List.map_congr_left
      intro c _
      simp only [Function.comp_def]
      ring

lemma revScanSelect_shift {α : Type} (cdf : List (α × ℚ)) (w u : ℚ) :
    revScanSelect (cdf.map fun e => (e.1, e.2 + w)) u =
      revScanSelect cdf (u - w) := by
  unfold revScanSelect
  rw [← List.map_reverse, List.find?_map]
  have hp : ((fun e : α × ℚ => decide (e.2 ≤ u)) ∘
      fun e : α × ℚ => (e.1, e.2 + w)) =
      fun e : α × ℚ => decide (e.2 ≤ u - w) := by
    funext e
    simp [Function.comp_def]
    constructor
    · intro h; linarith
    · intro h; linarith
  rw [hp, Option.map_map]
  rfl

lemma revScanSelect_cons {α : Type} (v : α) (c : ℚ)
    (rest : List (α × ℚ)) (u : ℚ) :
    revScanSelect ((v, c) :: rest) u =
      ((revScanSelect rest u).or (if c ≤ u then some v else none)) := by
  unfold revScanSelect
  rw [List.reverse_cons, List.find?_append]
  cases h : (rest.reverse.find? fun e => decide (e.2 ≤ u)) with
  | none =>
      simp only [h, Option.map_none', Option.none_or, Option.or_none]
      by_cases hc : c ≤ u
      · simp [hc]
      · simp [hc]
  | some e => simp [h]

lemma fwdInvCdfIdx_cons (w : ℚ) (ws : List ℚ) (u : ℚ) :
    fwdInvCdfIdx (w :: ws) u =
      if u < w then some 0 else
        (fwdInvCdfIdx ws (u - w)).map fun i => i + 1 := by
  unfold fwdInvCdfIdx
  rw [List.length_cons, List.range_succ_eq_map, List.find?_cons]
  have h0 : (decide (u < ((w :: ws).take (0 + 1)).sum)) = decide (u < w) := by
    simp
  by_cases hu : u < w
  · rw [show (decide (u < ((w :: ws).take (0 + 1)).sum)) = true by
      simpa using hu, if_pos hu]
  · rw [show (decide (u < ((w :: ws).take (0 + 1)).sum)) = false by
      simpa using hu, if_neg hu]
    rw [List.find?_map]
    have hp : ((fun i => decide (u < ((w :: ws).take (i + 1)).sum)) ∘
        Nat.succ) = fun i => decide (u - w < ((ws).take (i + 1)).sum) := by
      funext i
      simp only [Function.comp_def, Nat.succ_eq_add_one, List.take_succ_cons,
        List.sum_cons]
      rw [decide_eq_decide]
      constructor
      · intro h; linarith
      · intro h; linarith
    rw [hp]

lemma fwdInvCdfSelect_cons {α : Type} (v : α) (vals : List α) (w : ℚ)
    (ws : List ℚ) (u : ℚ) :
    fwdInvCdfSelect (v :: vals) (w :: ws) u =
      if u < w then some v else fwdInvCdfSelect vals ws (u - w) := by
  unfold fwdInvCdfSelect
  rw [fwdInvCdfIdx_cons]
  by_cases hu : u < w
  · rw [if_pos hu, if_pos hu]
    rfl
  · rw [if_neg hu, if_neg hu]
    cases h : fwdInvCdfIdx ws (u - w) with
    | none => rfl
    | some i => rfl

lemma exclCdf_eq_zip {α : Type} (getV : Particle → α)
    (getW : Particle → ℚ) (acc : ℚ) (ps : List Particle) :
    exclCdf getV getW acc ps =
      (ps.map getV).zip (exclPrefixes acc (ps.map getW)) := by
  induction ps generalizing acc with
  | nil => rfl
  | cons p t ih =>
      show (getV p, acc) :: exclCdf getV getW (acc + getW p) t = _
      rw [List.map_cons, List.map_cons]
      show _ = (getV p, acc) ::
        (t.map getV).zip (exclPrefixes (acc + getW p) (t.map getW))
      rw [ih (acc + getW p)]

lemma scanEquivAux {α : Type} : ∀ (ws : List ℚ) (vals : List α) (u : ℚ),
    vals.length = ws.length → (∀ w ∈ ws, 0 ≤ w) → u < ws.sum →
    (revScanSelect (vals.zip (exclPrefixes 0 ws)) u =
      if 0 ≤ u then fwdInvCdfSelect vals ws u else none) ∧
    (0 ≤ u → (fwdInvCdfSelect vals ws u).isSome = true) := by
  intro ws
  induction ws with
  | nil =>
      intro vals u hlen hnn hu
      rw [List.length_eq_zero.mp hlen]
      constructor
      · show revScanSelect [] u = if 0 ≤ u then fwdInvCdfSelect [] [] u
          else none
        have hf : fwdInvCdfSelect ([] : List α) [] u = none := rfl
        rw [hf]
        simp [revScanSelect]
      · intro hu0
        exfalso
        simp at hu
        linarith
  | cons w ws ih =>
      intro vals u hlen hnn hu
      cases vals with
      | nil => simp at hlen
      | cons v vals =>
          have hlen' : vals.length = ws.length := by
            simpa using hlen
          have hnn' : ∀ x ∈ ws, 0 ≤ x := fun x hx =>
            hnn x (List.mem_cons_of_mem w hx)
          have hw : 0 ≤ w := hnn w (List.mem_cons_self w ws)
          have hu' : u - w < ws.sum := by
            rw [List.sum_cons] at hu
            linarith
          obtain ⟨ih1, ih2⟩ := ih vals (u - w) hlen' hnn' hu'
          have hzip : (v :: vals).zip (exclPrefixes 0 (w :: ws)) =
              (v, 0) :: ((vals.zip (exclPrefixes 0 ws)).map
                fun e => (e.1, e.2 + w)) := by
            show (v, 0) :: vals.zip (exclPrefixes (0 + w) ws) = _
            rw [zero_add, exclPrefixes_shift w ws, List.zip_map_right]
            rfl
          constructor
          · rw [hzip, revScanSelect_cons, revScanSelect_shift, ih1,
              fwdInvCdfSelect_cons]
            by_cases hu0 : 0 ≤ u
            · rw [if_pos hu0]
              by_cases huw : u < w
              · have : ¬ 0 ≤ u - w := by linarith
                rw [if_neg this, if_pos huw]
                simp [hu0]
              · have h0w : 0 ≤ u - w := by linarith
                rw [if_pos h0w, if_neg huw]
                have hsome := ih2 h0w
                cases hks : fwdInvCdfSelect vals ws (u - w) with
                | none => rw [hks] at hsome; simp at hsome
                | some x => simp [hks, hu0]
            · have h2 : ¬ 0 ≤ u - w := by linarith
              simp [hu0, h2]
          · intro hu0
            rw [fwdInvCdfSelect_cons]
            by_cases huw : u < w
            · rw [if_pos huw]; rfl
            · rw [if_neg huw]
              exact ih2 (by linarith)

/-- **C9.**  For every weight channel with non-negative weights summing to
`1` and every sample `u ∈ [0,1)`, the parent selected by the implemented
reverse scan over the exclusive-prefix-sum CDF (`revScanSelect` over
`exclCdf`, exactly the loop of lines 605–617) equals the parent selected
by standard forward inverse-CDF sampling (`fwdInvCdfSelect`, modelled from
the spec): the two procedures are equal as functions of `u`. -/
theorem c9_reverse_scan_equiv {α : Type} (getV : Particle → α)
    (getW : Particle → ℚ) (ps : List Particle) (u : ℚ)
    (hnn : ∀ p ∈ ps, 0 ≤ getW p) (hsum : (ps.map getW).sum = 1)
    (hu0 : 0 ≤ u) (hu1 : u < 1) :
    revScanSelect (exclCdf getV getW 0 ps) u =
      fwdInvCdfSelect (ps.map getV) (ps.map getW) u := by
  have hlen : (ps.map getV).length = (ps.map getW).length := by
    rw [List.length_map, List.length_map]
  have hnn' : ∀ w ∈ ps.map getW, 0 ≤ w := by
    intro w hw
    obtain ⟨p, hp, rfl⟩ := List.mem_map.mp hw
    exact hnn p hp
  have hu' : u < (ps.map getW).sum := by rw [hsum]; exact hu1
  have := (scanEquivAux (ps.map getW) (ps.map getV) u hlen hnn' hu').1
  rw [exclCdf_eq_zip, this, if_pos hu0]

/-- Witness for C9: two particles with position weights `1/2` each and
sample `u = 3/4`; both sampling procedures select the second particle. -/
theorem c9_reverse_scan_equiv_witness :
    revScanSelect (exclCdf getPos getPosW 0
      [⟨⟨1, 0, 0⟩, 1 / 2, qone, 1 / 2, vzero, 1 / 2, qone, 1 / 2, vzero,
        1 / 2⟩,
       ⟨⟨2, 0, 0⟩, 1 / 2, qone, 1 / 2, vzero, 1 / 2, qone, 1 / 2, vzero,
        1 / 2⟩]) (3 / 4) =
    fwdInvCdfSelect
      (([⟨⟨1, 0, 0⟩, 1 / 2, qone, 1 / 2, vzero, 1 / 2, qone, 1 / 2, vzero,
          1 / 2⟩,
         ⟨⟨2, 0, 0⟩, 1 / 2, qone, 1 / 2, vzero, 1 / 2, qone, 1 / 2, vzero,
          1 / 2⟩] : List Particle).map getPos)
      (([⟨⟨1, 0, 0⟩, 1 / 2, qone, 1 / 2, vzero, 1 / 2, qone, 1 / 2, vzero,
          1 / 2⟩,
         ⟨⟨2, 0, 0⟩, 1 / 2, qone, 1 / 2, vzero, 1 / 2, qone, 1 / 2, vzero,
          1 / 2⟩] : List Particle).map getPosW) (3 / 4) :=
  c9_reverse_scan_equiv getPos getPosW
    [⟨⟨1, 0, 0⟩, 1 / 2, qone, 1 / 2, vzero, 1 / 2, qone, 1 / 2, vzero,
      1 / 2⟩,
     ⟨⟨2, 0, 0⟩, 1 / 2, qone, 1 / 2, vzero, 1 / 2, qone, 1 / 2, vzero,
      1 / 2⟩] (3 / 4) (by decide) (by decide) (by decide) (by decide)

/-- **C5 (code bug).**  With an IMU mounted with a non-identity
isometry-from-base (here the rotation sending `(1,0,0)` to `(0,1,0)`), the
calibration accumulator stores the **raw** acceleration `(1,0,0)` for the
first sample of the IMU (the `Entry::Vacant` arm of lines 179–181 skips
the `isometry *` transform that the `Entry::Occupied` arm applies), so
after two identical samples the accumulated sum is `(1,1,0)` — the first
sample untransformed, the second transformed — instead of `(0,2,0)`. -/
theorem c5_first_sample_untransformed :
    ((calibAccumulate (fun _ v => ⟨-v.y, v.x, v.z⟩)
        [⟨0, ⟨1, 0, 0⟩, qone⟩]).2.lookup 0 =
      some ⟨1, ⟨1, 0, 0⟩, qone⟩) ∧
    ((fun (_ : ℕ) (v : Vec3) => (⟨-v.y, v.x, v.z⟩ : Vec3)) 0 ⟨1, 0, 0⟩ =
      ⟨0, 1, 0⟩) ∧
    ((calibAccumulate (fun _ v => ⟨-v.y, v.x, v.z⟩)
        [⟨0, ⟨1, 0, 0⟩, qone⟩, ⟨0, ⟨1, 0, 0⟩, qone⟩]).2.lookup 0 =
      some ⟨2, ⟨1, 1, 0⟩, qone⟩) ∧
    (⟨1, 0, 0⟩ : Vec3) ≠ ⟨0, 1, 0⟩ := by
  refine ⟨by decide, by decide, by decide, by decide⟩

/-- **C1 (code bug).**  `Costmap::is_global_point_safe` returns `false`
unconditionally (its body is literally `false`), even for a costmap whose
frames contain no cells at all — where the claimed semantics ("safe iff no
cell within the radius has mean height at or above the threshold") demands
`true` vacuously. -/
theorem c1_safety_query_unimplemented :
    is_global_point_safe ⟨0, 5, [defaultFrame, defaultFrame]⟩ ⟨0, 0, 0⟩ 1 =
      false ∧
    ([defaultFrame, defaultFrame].all fun f => f.cells.isEmpty) = true := by
  refine ⟨rfl, by decide⟩

lemma ilog2F_eq : ∀ (fuel n : ℕ), n ≤ fuel → ilog2F fuel n = Nat.log 2 n := by
  intro fuel
  induction fuel with
  | zero =>
      intro n h
      have : n = 0 := Nat.le_zero.mp h
      subst this
      simp [ilog2F]
  | succ f ih =>
      intro n h
      by_cases h1 : n ≤ 1
      · have : n < 2 := by omega
        simp [ilog2F, h1, Nat.log_of_lt this]
      · have h2 : 2 ≤ n := by omega
        have hf : n / 2 ≤ f := by omega
        rw [show ilog2F (f + 1) n = ilog2F f (n / 2) + 1 by
          simp [ilog2F, h1], ih (n / 2) hf,
          Nat.log_of_one_lt_of_le one_lt_two h2]

lemma clog2F_eq : ∀ (fuel n : ℕ), n ≤ fuel →
    clog2F fuel n = Nat.clog 2 n := by
  intro fuel
  induction fuel with
  | zero =>
      intro n h
      have : n = 0 := Nat.le_zero.mp h
      subst this
      simp [clog2F]
  | succ f ih =>
      intro n h
      by_cases h1 : n ≤ 1
      · simp [clog2F, h1, Nat.clog_of_right_le_one h1]
      · have h2 : 2 ≤ n := by omega
        have hf : (n + 1) / 2 ≤ f := by omega
        have hn : n + 2 - 1 = n + 1 := by omega
        rw [show clog2F (f + 1) n = clog2F f ((n + 1) / 2) + 1 by
          simp [clog2F, h1], ih ((n + 1) / 2) hf,
          Nat.clog_of_two_le one_lt_two h2, hn]

lemma foldl_min_le_init {α : Type} [LinearOrder α] :
    ∀ (l : List α) (a : α), l.foldl min a ≤ a := by
  intro l
  induction l with
  | nil => intro a; exact le_refl a
  | cons x t ih =>
      intro a
      calc (x :: t).foldl min a = t.foldl min (min a x) := rfl
      _ ≤ min a x := ih (min a x)
      _ ≤ a := min_le_left a x

lemma foldl_min_le {α : Type} [LinearOrder α] :
    ∀ (l : List α) (a x : α), x ∈ l → l.foldl min a ≤ x := by
  intro l
  induction l with
  | nil => intro a x hx; cases hx
  | cons y t ih =>
      intro a x hx
      rcases List.mem_cons.mp hx with rfl | hx
      · calc (x :: t).foldl min a = t.foldl min (min a x) := rfl
        _ ≤ min a x := foldl_min_le_init t (min a x)
        _ ≤ x := min_le_right a x
      · exact ih (min a y) x hx

lemma foldl_min_mem {α : Type} [LinearOrder α] :
    ∀ (l : List α) (a : α), l.foldl min a ∈ a :: l := by
  intro l
  induction l with
  | nil => intro a; exact List.mem_cons_self a []
  | cons x t ih =>
      intro a
      rw [List.foldl_cons]
      have := ih (min a x)
      rcases List.mem_cons.mp this with h | h
      · rcases min_choice a x with hc | hc
        · rw [h, hc]; exact List.mem_cons_self a (x :: t)
        · rw [h, hc]
          exact List.mem_cons_of_mem a (List.mem_cons_self x t)
      · exact List.mem_cons_of_mem a (List.mem_cons_of_mem x h)

lemma foldl_max_init_le {α : Type} [LinearOrder α] :
    ∀ (l : List α) (a : α), a ≤ l.foldl max a := by
  intro l
  induction l with
  | nil => intro a; exact le_refl a
  | cons x t ih =>
      intro a
      calc a ≤ max a x := le_max_left a x
      _ ≤ t.foldl max (max a x) := ih (max a x)

lemma le_foldl_max {α : Type} [LinearOrder α] :
    ∀ (l : List α) (a x : α), x ∈ l → x ≤ l.foldl max a := by
  intro l
  induction l with
  | nil => intro a x hx; cases hx
  | cons y t ih =>
      intro a x hx
      rcases List.mem_cons.mp hx with rfl | hx
      · calc x ≤ max a x := le_max_right a x
        _ ≤ t.foldl max (max a x) := foldl_max_init_le t (max a x)
      · exact ih (max a y) x hx

lemma foldl_max_mem {α : Type} [LinearOrder α] :
    ∀ (l : List α) (a : α), l.foldl max a ∈ a :: l := by
  intro l
  induction l with
  | nil => intro a; exact List.mem_cons_self a []
  | cons x t ih =>
      intro a
      rw [List.foldl_cons]
      have := ih (max a x)
      rcases List.mem_cons.mp this with h | h
      · rcases max_choice a x with hc | hc
        · rw [h, hc]; exact List.mem_cons_self a (x :: t)
        · rw [h, hc]
          exact List.mem_cons_of_mem a (List.mem_cons_self x t)
      · exact List.mem_cons_of_mem a (List.mem_cons_of_mem x h)

lemma minmax_step {α : Type} [LinearOrder α] (mn mx v : α) (h : mn ≤ mx) :
    (if v < mn then v else mn) = min mn v ∧
    (if v < mn then mx else if v > mx then v else mx) = max mx v := by
  constructor
  · by_cases h1 : v < mn
    · rw [if_pos h1, min_eq_right (le_of_lt h1)]
    · rw [if_neg h1, min_eq_left (le_of_not_lt h1)]
  · by_cases h1 : v < mn
    · rw [if_pos h1, max_eq_left (le_of_lt (lt_of_lt_of_le h1 h))]
    · rw [if_neg h1]
      by_cases h2 : v > mx
      · rw [if_pos h2, max_eq_right (le_of_lt h2)]
      · rw [if_neg h2, max_eq_left (le_of_not_lt h2)]

lemma boundsScan_eq : ∀ (rest : List ((ℤ × ℤ) × ℚ)) (b : Bounds),
    b.min_x ≤ b.max_x → b.min_z ≤ b.max_z → b.min_h ≤ b.max_h →
    rest.foldl boundsStep b =
      ⟨(rest.map fun e => e.1.1).foldl min b.min_x,
       (rest.map fun e => e.1.1).foldl max b.max_x,
       (rest.map fun e => e.1.2).foldl min b.min_z,
       (rest.map fun e => e.1.2).foldl max b.max_z,
       (rest.map fun e => e.2).foldl min b.min_h,
       (rest.map fun e => e.2).foldl max b.max_h⟩ := by
  intro rest
  induction rest with
  | nil => intro b _ _ _; rfl
  | cons e rest ih =>
      intro b h1 h2 h3
      obtain ⟨hx1, hx2⟩ := minmax_step b.min_x b.max_x e.1.1 h1
      obtain ⟨hz1, hz2⟩ := minmax_step b.min_z b.max_z e.1.2 h2
      obtain ⟨hh1, hh2⟩ := minmax_step b.min_h b.max_h e.2 h3
      have hstep : boundsStep b e =
          ⟨min b.min_x e.1.1, max b.max_x e.1.1, min b.min_z e.1.2,
           max b.max_z e.1.2, min b.min_h e.2, max b.max_h e.2⟩ := by
        unfold boundsStep
        rw [hx1, hx2, hz1, hz2, hh1, hh2]
      have h1' : min b.min_x e.1.1 ≤ max b.max_x e.1.1 :=
        le_trans (min_le_left _ _) (le_trans h1 (le_max_left _ _))
      have h2' : min b.min_z e.1.2 ≤ max b.max_z e.1.2 :=
        le_trans (min_le_left _ _) (le_trans h2 (le_max_left _ _))
      have h3' : min b.min_h e.2 ≤ max b.max_h e.2 :=
        le_trans (min_le_left _ _) (le_trans h3 (le_max_left _ _))
      rw [List.foldl_cons, hstep,
        ih ⟨min b.min_x e.1.1, max b.max_x e.1.1, min b.min_z e.1.2,
          max b.max_z e.1.2, min b.min_h e.2, max b.max_h e.2⟩ h1' h2' h3']
      simp [List.map_cons, List.foldl_cons]

lemma isLeastOf_foldl_min {α : Type} [LinearOrder α] (a : α) (l : List α) :
    isLeastOf (l.foldl min a) (a :: l) := by
  refine ⟨foldl_min_mem l a, ?_⟩
  intro x hx
  rcases List.mem_cons.mp hx with rfl | h
  · exact foldl_min_le_init l x
  · exact foldl_min_le l a x h

lemma isGreatestOf_foldl_max {α : Type} [LinearOrder α] (a : α)
    (l : List α) : isGreatestOf (l.foldl max a) (a :: l) := by
  refine ⟨foldl_max_mem l a, ?_⟩
  intro x hx
  rcases List.mem_cons.mp hx with rfl | h
  · exact foldl_max_init_le l x
  · exact le_foldl_max l a x h

/-- **C6 (amended).**  For every batch whose grid bounding box has
`max_range ≥ 1`, the rasterizer chooses the quadtree depth as
`next_power_of_two(⌊log₂ max_range⌋)` — the **floor** logarithm
(`usize::ilog2`), not the ceiling the claim states — where `max_range` is
the longer of the two grid-index bounding-box axes: the scanned bounds are
exactly the least/greatest mapped grid indices and heights.  (For
`max_range = 0`, e.g. a single-point batch, the source panics in
`usize::ilog2`.) -/
theorem c6_depth_floor_log (tf : Vec3 → Vec3) (res : ℚ)
    (input : List Vec3) (b : Bounds)
    (hb : batchBounds tf res input = some b) (hr : 1 ≤ maxRangeOf b) :
    chosenDepth tf res input =
      some (2 ^ Nat.clog 2 (Nat.log 2 (maxRangeOf b))) ∧
    isLeastOf b.min_x ((mapPoints tf res input).map fun e => e.1.1) ∧
    isGreatestOf b.max_x ((mapPoints tf res input).map fun e => e.1.1) ∧
    isLeastOf b.min_z ((mapPoints tf res input).map fun e => e.1.2) ∧
    isGreatestOf b.max_z ((mapPoints tf res input).map fun e => e.1.2) ∧
    isLeastOf b.min_h ((mapPoints tf res input).map fun e => e.2) ∧
    isGreatestOf b.max_h ((mapPoints tf res input).map fun e => e.2) := by
  have hdepth : chosenDepth tf res input =
      some (2 ^ Nat.clog 2 (Nat.log 2 (maxRangeOf b))) := by
    unfold chosenDepth
    rw [hb]
    have hnz : maxRangeOf b ≠ 0 := by omega
    unfold rustIlog2
    show Option.map rustNextPowerOfTwo
      (if maxRangeOf b = 0 then none
       else some (ilog2F (maxRangeOf b) (maxRangeOf b))) =
      some (2 ^ Nat.clog 2 (Nat.log 2 (maxRangeOf b)))
    rw [if_neg hnz]
    rw [Option.map_some', rustNextPowerOfTwo,
      ilog2F_eq (maxRangeOf b) (maxRangeOf b) (le_refl _),
      clog2F_eq (Nat.log 2 (maxRangeOf b)) (Nat.log 2 (maxRangeOf b))
        (le_refl _)]
  refine ⟨hdepth, ?_⟩
  unfold batchBounds at hb
  cases hm : mapPoints tf res input with
  | nil => rw [hm] at hb; cases hb
  | cons first rest =>
      rw [hm] at hb
      have hb' : rest.foldl boundsStep (initBounds first) = b :=
        Option.some.inj hb
      have hscan := boundsScan_eq rest (initBounds first) (le_refl _)
        (le_refl _) (le_refl _)
      rw [hscan] at hb'
      subst hb'
      simp only [List.map_cons]
      exact ⟨isLeastOf_foldl_min _ _, isGreatestOf_foldl_max _ _,
        isLeastOf_foldl_min _ _, isGreatestOf_foldl_max _ _,
        isLeastOf_foldl_min _ _, isGreatestOf_foldl_max _ _⟩

/-- Witness for the amended C6: the batch `[(0,·,0), (5,·,0)]` at
resolution `1` has `max_range = 5` and the chosen depth is
`2 ^ ⌈log₂ ⌊log₂ 5⌋⌉ = 2`. -/
theorem c6_depth_floor_log_witness :
    chosenDepth (fun v => v) 1 [⟨0, 7, 0⟩, ⟨5, 3, 0⟩] =
      some (2 ^ Nat.clog 2 (Nat.log 2
        (maxRangeOf ⟨0, 5, 0, 0, 3, 7⟩))) :=
  (c6_depth_floor_log (fun v => v) 1 [⟨0, 7, 0⟩, ⟨5, 3, 0⟩]
    ⟨0, 5, 0, 0, 3, 7⟩ (by decide) (by decide)).1

/-- **C6 (counterexample).**  The claim's formula uses the ceiling
logarithm: at `max_range = 5` it yields
`next_power_of_two(⌈log₂ 5⌉) = next_power_of_two(3) = 4`, but the code
(`usize::ilog2`, the floor logarithm) chooses depth
`next_power_of_two(⌊log₂ 5⌋) = next_power_of_two(2) = 2`. -/
theorem c6_depth_counterexample :
    chosenDepth (fun v => v) 1 [⟨0, 0, 0⟩, ⟨5, 0, 0⟩] = some 2 ∧
    2 ^ Nat.clog 2 (Nat.clog 2 5) = 4 ∧ (2 : ℕ) ≠ 4 := by
  refine ⟨by decide, ?_, by decide⟩
  have h5 : Nat.clog 2 5 = 3 := by
    rw [← clog2F_eq 5 5 (le_refl _)]
    decide
  have h3 : Nat.clog 2 3 = 2 := by
    rw [← clog2F_eq 3 3 (le_refl _)]
    decide
  rw [h5, h3]
  decide

lemma lookup_eq_some_mem {beta : Type} (a : ℕ × ℕ) (c : beta) :
    ∀ l : List ((ℕ × ℕ) × beta), l.lookup a = some c → (a, c) ∈ l := by
  intro l
  induction l with
  | nil => intro h; cases h
  | cons kc t ih =>
      intro h
      obtain ⟨k, c0⟩ := kc
      rw [List.lookup_cons] at h
      by_cases hk : a = k
      · rw [show (a == k) = true by simpa using hk] at h
        subst hk
        have : c0 = c := by
          cases h
          rfl
        subst this
        exact List.mem_cons_self (a, c0) t
      · rw [show (a == k) = false by simpa using hk] at h
        exact List.mem_cons_of_mem (k, c0) (ih h)

lemma lookup_none_no_key {beta : Type} (a : ℕ × ℕ) :
    ∀ l : List ((ℕ × ℕ) × beta), l.lookup a = none →
      ∀ kc ∈ l, kc.1 ≠ a := by
  intro l
  induction l with
  | nil => intro _ kc hkc; cases hkc
  | cons kc0 t ih =>
      intro h kc hkc
      obtain ⟨k, c0⟩ := kc0
      rw [List.lookup_cons] at h
      by_cases hk : a = k
      · rw [show (a == k) = true by simpa using hk] at h
        cases h
      · rw [show (a == k) = false by simpa using hk] at h
        rcases List.mem_cons.mp hkc with rfl | hm
        · simpa using fun hh => hk hh.symm
        · exact ih h kc hm

lemma bump_map_noop {beta : Type} (a : ℕ × ℕ)
    (f : (ℕ × ℕ) × beta → (ℕ × ℕ) × beta) :
    ∀ l : List ((ℕ × ℕ) × beta), (∀ kc ∈ l, kc.1 ≠ a) →
      (l.map fun kc => if kc.1 = a then f kc else kc) = l := by
  intro l hl
  have : ∀ kc ∈ l, (if kc.1 = a then f kc else kc) = id kc := by
    intro kc hkc
    rw [if_neg (hl kc hkc)]
    rfl
  rw [List.map_congr_left this, List.map_id]

lemma bump_count_sum (a : ℕ × ℕ) (h : ℚ) :
    ∀ l : List ((ℕ × ℕ) × HeightCell), (l.map Prod.fst).Nodup →
      (∃ c, l.lookup a = some c) →
      cellsCountSum (l.map fun kc => if kc.1 = a then
        (kc.1, ⟨kc.2.total_height + h, kc.2.count + 1⟩) else kc) =
      cellsCountSum l + 1 := by
  intro l
  induction l with
  | nil => intro _ hc; obtain ⟨c, hc⟩ := hc; cases hc
  | cons kc0 t ih =>
      intro hnd hc
      obtain ⟨c, hc⟩ := hc
      obtain ⟨k, c0⟩ := kc0
      rw [List.map_cons, List.nodup_cons] at hnd
      obtain ⟨hknot, hndt⟩ := hnd
      rw [List.lookup_cons] at hc
      by_cases hk : a = k
      · subst hk
        rw [show (a == a) = true by simp] at hc
        have hnot : ∀ kc ∈ t, kc.1 ≠ a := by
          intro kc hkc heq
          apply hknot
          rw [← heq]
          exact List.mem_map.mpr ⟨kc, hkc, rfl⟩
        rw [List.map_cons, if_pos rfl, bump_map_noop a _ t hnot]
        show (c0.count + 1) + cellsCountSum t = (c0.count + cellsCountSum t) + 1
        omega
      · rw [show (a == k) = false by simpa using hk] at hc
        rw [List.map_cons, if_neg (fun hh : k = a => hk hh.symm)]
        show c0.count + cellsCountSum (t.map _) = (c0.count + cellsCountSum t) + 1
        rw [ih hndt ⟨c, hc⟩]
        omega

lemma qtStep_spec (side : ℕ) (lo hi : ℚ) (st : QtState) (a : ℕ × ℕ)
    (h : ℚ) (hinv : qtInv side lo hi st.cells) (hlo : lo ≤ h)
    (hhi : h ≤ hi) :
    qtInv side lo hi (qtStep side st (a, h)).cells ∧
    cellsCountSum (qtStep side st (a, h)).cells =
      cellsCountSum st.cells +
        (if a.1 + 1 ≤ side ∧ a.2 + 1 ≤ side then 1 else 0) := by
  obtain ⟨hnd, hbd, hcl⟩ := hinv
  simp only [qtStep]
  cases hl : st.cells.lookup a with
  | some c =>
      simp only [hl]
      have hain : a.1 + 1 ≤ side ∧ a.2 + 1 ≤ side :=
        hbd (a, c) (lookup_eq_some_mem a c st.cells hl)
      have hkeys : ((st.cells.map fun kc =>
          if kc.1 = a then
            (kc.1, (⟨kc.2.total_height + h, kc.2.count + 1⟩ : HeightCell))
          else kc).map Prod.fst) = st.cells.map Prod.fst := by
        rw [List.map_map]
        apply List.map_congr_left
        intro kc _
        by_cases hk : kc.1 = a
        · rw [Function.comp_apply, if_pos hk]
        · rw [Function.comp_apply, if_neg hk]
      refine ⟨⟨by rw [hkeys]; exact hnd, ?_, ?_⟩, ?_⟩
      · intro kc' hkc'
        obtain ⟨kc, hkc, rfl⟩ := List.mem_map.mp hkc'
        by_cases hk : kc.1 = a
        · rw [if_pos hk]
          exact hbd kc hkc
        · rw [if_neg hk]
          exact hbd kc hkc
      · intro kc' hkc'
        obtain ⟨kc, hkc, rfl⟩ := List.mem_map.mp hkc'
        obtain ⟨hc1, hc2, hc3⟩ := hcl kc hkc
        by_cases hk : kc.1 = a
        · rw [if_pos hk]
          refine ⟨by show 1 ≤ kc.2.count + 1; omega, ?_, ?_⟩
          · show lo * ((kc.2.count + 1 : ℕ) : ℚ) ≤ kc.2.total_height + h
            push_cast
            nlinarith
          · show kc.2.total_height + h ≤ hi * ((kc.2.count + 1 : ℕ) : ℚ)
            push_cast
            nlinarith
        · rw [if_neg hk]
          exact ⟨hc1, hc2, hc3⟩
      · rw [bump_count_sum a h st.cells hnd ⟨c, hl⟩, if_pos hain]
  | none =>
      simp only [hl]
      have hnone := lookup_none_no_key a st.cells hl
      by_cases hin : a.1 + 1 ≤ side ∧ a.2 + 1 ≤ side
      · rw [if_pos hin]
        refine ⟨⟨?_, ?_, ?_⟩, ?_⟩
        · rw [List.map_append]
          rw [List.nodup_append]
          refine ⟨hnd, List.nodup_singleton a, ?_⟩
          intro x hx hx2
          obtain ⟨kc, hkc, rfl⟩ := List.mem_map.mp hx
          have : kc.1 = a := by
            simpa using hx2
          exact hnone kc hkc this
        · intro kc hkc
          rcases List.mem_append.mp hkc with hm | hm
          · exact hbd kc hm
          · have : kc = (a, ⟨h, 1⟩) := by simpa using hm
            subst this
            exact hin
        · intro kc hkc
          rcases List.mem_append.mp hkc with hm | hm
          · exact hcl kc hm
          · have : kc = (a, ⟨h, 1⟩) := by simpa using hm
            subst this
            refine ⟨le_refl 1, ?_, ?_⟩
            · show lo * ((1 : ℕ) : ℚ) ≤ h
              push_cast
              linarith
            · show h ≤ hi * ((1 : ℕ) : ℚ)
              push_cast
              linarith
        · show cellsCountSum (st.cells ++ [(a, ⟨h, 1⟩)]) =
            cellsCountSum st.cells +
              (if a.1 + 1 ≤ side ∧ a.2 + 1 ≤ side then 1 else 0)
          rw [if_pos hin]
          unfold cellsCountSum
          rw [List.map_append, List.sum_append]
          rfl
      · rw [if_neg hin]
        refine ⟨⟨hnd, hbd, hcl⟩, ?_⟩
        rw [if_neg hin]
        show cellsCountSum st.cells = cellsCountSum st.cells + 0
        omega

lemma inBoundsCount_cons (b : Bounds) (side : ℕ) (e : (ℤ × ℤ) × ℚ)
    (pts : List ((ℤ × ℤ) × ℚ)) :
    inBoundsCount b side (e :: pts) =
      (if inBoundsPt b side e then 1 else 0) + inBoundsCount b side pts := by
  unfold inBoundsCount
  rw [List.filter_cons]
  by_cases hp : inBoundsPt b side e
  · simp [hp]
    omega
  · simp [hp]

lemma qtFold_spec (side : ℕ) (lo hi : ℚ) (b : Bounds) :
    ∀ (pts : List ((ℤ × ℤ) × ℚ)) (st : QtState),
      qtInv side lo hi st.cells →
      (∀ e ∈ pts, lo ≤ e.2 ∧ e.2 ≤ hi) →
      qtInv side lo hi
        ((pts.foldl (fun st e => qtStep side st (anchorOf b e, e.2))
          st).cells) ∧
      cellsCountSum ((pts.foldl (fun st e =>
          qtStep side st (anchorOf b e, e.2)) st).cells) =
        cellsCountSum st.cells + inBoundsCount b side pts := by
  intro pts
  induction pts with
  | nil =>
      intro st hinv _
      exact ⟨hinv, by simp [inBoundsCount]⟩
  | cons e pts ih =>
      intro st hinv hh
      have he := hh e (List.mem_cons_self e pts)
      obtain ⟨hinv', hsum'⟩ := qtStep_spec side lo hi st (anchorOf b e)
        e.2 hinv he.1 he.2
      obtain ⟨hinv'', hsum''⟩ := ih (qtStep side st (anchorOf b e, e.2))
        hinv' (fun x hx => hh x (List.mem_cons_of_mem e hx))
      rw [List.foldl_cons]
      refine ⟨hinv'', ?_⟩
      rw [hsum'', hsum', inBoundsCount_cons]
      have hcond : (if (anchorOf b e).1 + 1 ≤ side ∧
          (anchorOf b e).2 + 1 ≤ side then 1 else 0) =
          (if inBoundsPt b side e then 1 else 0) := by
        unfold inBoundsPt
        rfl
      rw [hcond]
      omega

lemma batchBounds_eq_some (tf : Vec3 → Vec3) (res : ℚ)
    (input : List Vec3) (b : Bounds)
    (h : batchBounds tf res input = some b) :
    ∃ first rest, mapPoints tf res input = first :: rest ∧
      b = rest.foldl boundsStep (initBounds first) := by
  unfold batchBounds at h
  cases hm : mapPoints tf res input with
  | nil => rw [hm] at h; cases h
  | cons f r =>
      rw [hm] at h
      exact ⟨f, r, rfl, (Option.some.inj h).symm⟩

/-- **C7 (amended).**  For every batch of points rasterized into a
`CostmapFrame`, the sum over all quadtree cells of `count` equals the
number of mapped points whose anchor fits inside the
`2^depth × 2^depth` quadtree area — points outside it are silently
dropped by `quadtree_rs::insert_pt`, so the sum can be **less** than the
number of input points — and every cell satisfies
`min_height ≤ total_height/count ≤ max_height` for the frame's recorded
extremes.  In-bounds points with an existing cell increment `count` and
add their height; otherwise a fresh cell `{y, 1}` is inserted (`qtStep`). -/
theorem c7_cell_accounting (tf : Vec3 → Vec3) (res : ℚ) (iso : Iso)
    (input : List Vec3) (frame : CostmapFrame)
    (hf : rasterize tf res iso input = some frame) :
    ∃ (b : Bounds) (l : ℕ),
      batchBounds tf res input = some b ∧
      rustIlog2 (maxRangeOf b) = some l ∧
      cellsCountSum frame.cells =
        inBoundsCount b (2 ^ rustNextPowerOfTwo l)
          (mapPoints tf res input) ∧
      ∀ cell ∈ frame.cells, 1 ≤ cell.2.count ∧
        frame.min_height ≤ cell.2.total_height / (cell.2.count : ℚ) ∧
        cell.2.total_height / (cell.2.count : ℚ) ≤ frame.max_height := by
  unfold rasterize at hf
  cases hbb : batchBounds tf res input with
  | none =>
      rw [hbb, Option.none_bind] at hf
      cases hf
  | some b =>
      rw [hbb, Option.some_bind] at hf
      cases hll : rustIlog2 (maxRangeOf b) with
      | none =>
          rw [hll, Option.none_bind] at hf
          cases hf
      | some l =>
          rw [hll, Option.some_bind] at hf
          have hframe : frame =
              { cells := ((mapPoints tf res input).foldl (fun st e =>
                  qtStep (2 ^ rustNextPowerOfTwo l) st
                    (anchorOf b e, e.2)) ⟨[], 0⟩).cells
                max_density := ((mapPoints tf res input).foldl (fun st e =>
                  qtStep (2 ^ rustNextPowerOfTwo l) st
                    (anchorOf b e, e.2)) ⟨[], 0⟩).max_density
                max_height := b.max_h
                min_height := b.min_h
                resolution := res
                isometry := iso } := (Option.some.inj hf).symm
          obtain ⟨first, rest, hm, hbfold⟩ :=
            batchBounds_eq_some tf res input b hbb
          have hscan := boundsScan_eq rest (initBounds first) (le_refl _)
            (le_refl _) (le_refl _)
          have hlo : b.min_h = (rest.map fun e => e.2).foldl min first.2 := by
            rw [hbfold, hscan]
            rfl
          have hhi : b.max_h = (rest.map fun e => e.2).foldl max first.2 := by
            rw [hbfold, hscan]
            rfl
          have hheights : ∀ e ∈ mapPoints tf res input,
              b.min_h ≤ e.2 ∧ e.2 ≤ b.max_h := by
            intro e he
            rw [hm] at he
            have hmem : e.2 ∈ first.2 :: (rest.map fun x => x.2) := by
              rcases List.mem_cons.mp he with rfl | hm2
              · exact List.mem_cons_self _ _
              · exact List.mem_cons_of_mem _
                  (List.mem_map.mpr ⟨e, hm2, rfl⟩)
            constructor
            · rw [hlo]
              exact (isLeastOf_foldl_min first.2
                (rest.map fun x => x.2)).2 e.2 hmem
            · rw [hhi]
              exact (isGreatestOf_foldl_max first.2
                (rest.map fun x => x.2)).2 e.2 hmem
          have hinv0 : qtInv (2 ^ rustNextPowerOfTwo l) b.min_h b.max_h
              (⟨[], 0⟩ : QtState).cells := by
            refine ⟨List.nodup_nil, ?_, ?_⟩
            · intro kc hkc; cases hkc
            · intro kc hkc; cases hkc
          obtain ⟨hinv, hsum⟩ := qtFold_spec (2 ^ rustNextPowerOfTwo l)
            b.min_h b.max_h b (mapPoints tf res input) ⟨[], 0⟩ hinv0
            hheights
          refine ⟨b, l, rfl, hll, ?_, ?_⟩
          · rw [hframe]
            show cellsCountSum _ = _
            rw [hsum]
            show 0 + _ = _
            omega
          · intro cell hcell
            rw [hframe] at hcell
            obtain ⟨hnd, hbd, hcl⟩ := hinv
            have hc := hcl cell hcell
            have hcpos : (0 : ℚ) < (cell.2.count : ℚ) := by
              exact_mod_cast hc.1
            refine ⟨hc.1, ?_, ?_⟩
            · rw [hframe]
              show b.min_h ≤ _
              rw [le_div_iff₀ hcpos]
              exact hc.2.1
            · rw [hframe]
              show _ ≤ b.max_h
              rw [div_le_iff₀ hcpos]
              calc cell.2.total_height ≤ b.max_h * cell.2.count := hc.2.2
                _ = _ := by ring

/-- Witness for the amended C7: the two-point batch `[(0,·), (5,·)]` at
resolution `1` produces a frame whose cell counts sum to the number of
in-bounds mapped points. -/
theorem c7_cell_accounting_witness :
    ∃ (b : Bounds) (l : ℕ),
      batchBounds (fun v => v) 1 [⟨0, 0, 0⟩, ⟨5, 0, 0⟩] = some b ∧
      rustIlog2 (maxRangeOf b) = some l ∧
      cellsCountSum (⟨[((0, 0), ⟨0, 1⟩)], 1, 0, 0, 1, isoId⟩ :
        CostmapFrame).cells =
        inBoundsCount b (2 ^ rustNextPowerOfTwo l)
          (mapPoints (fun v => v) 1 [⟨0, 0, 0⟩, ⟨5, 0, 0⟩]) ∧
      ∀ cell ∈ (⟨[((0, 0), ⟨0, 1⟩)], 1, 0, 0, 1, isoId⟩ :
          CostmapFrame).cells, 1 ≤ cell.2.count ∧
        (⟨[((0, 0), ⟨0, 1⟩)], 1, 0, 0, 1, isoId⟩ :
          CostmapFrame).min_height ≤
          cell.2.total_height / (cell.2.count : ℚ) ∧
        cell.2.total_height / (cell.2.count : ℚ) ≤
          (⟨[((0, 0), ⟨0, 1⟩)], 1, 0, 0, 1, isoId⟩ :
            CostmapFrame).max_height :=
  c7_cell_accounting (fun v => v) 1 isoId [⟨0, 0, 0⟩, ⟨5, 0, 0⟩]
    ⟨[((0, 0), ⟨0, 1⟩)], 1, 0, 0, 1, isoId⟩ (by decide)

/-- **C7 (counterexample).**  The claim's "the sum over all quadtree cells
of `count` equals the number of input points" fails: the batch
`[(0,0,0), (5,0,0)]` at resolution `1` has `max_range = 5`, so the chosen
depth `2` gives a `4 × 4` tree that cannot hold the anchor `(5,0)`; the
point is dropped and the counts sum to `1`, not `2`. -/
theorem c7_count_counterexample :
    ((rasterize (fun v => v) 1 isoId [⟨0, 0, 0⟩, ⟨5, 0, 0⟩]).map
      fun f => cellsCountSum f.cells) = some 1 ∧
    ([⟨0, 0, 0⟩, ⟨5, 0, 0⟩] : List Vec3).length = 2 ∧ (1 : ℕ) ≠ 2 := by
  refine ⟨by decide, by decide, by decide⟩

/-! ## C8: the sliding-window publication loop -/

theorem costmapIdx_wrap (W i : ℕ) (h : i < W) :
    (if W ≤ i + 1 then 0 else i + 1) = (i + 1) % W := by
  rcases Nat.lt_or_ge (i + 1) W with h1 | h1
  · rw [if_neg (by omega), Nat.mod_eq_of_lt h1]
  · have h2 : i + 1 = W := by omega
    rw [if_pos (by omega), h2, Nat.mod_self]

theorem costmapFold_idx (W : ℕ) (fs : List CostmapFrame) :
    ∀ (sl : List CostmapFrame) (i : ℕ), i < W →
      (fs.foldl (costmapStep W) (sl, i)).2 = (i + fs.length) % W := by
  induction fs with
  | nil =>
      intro sl i hi
      simp [Nat.mod_eq_of_lt hi]
  | cons f fs ih =>
      intro sl i hi
      simp only [List.length_cons, List.foldl_cons]
      show (fs.foldl (costmapStep W)
        (sl.set i f, if W ≤ i + 1 then 0 else i + 1)).2 =
        (i + (fs.length + 1)) % W
      rw [costmapIdx_wrap W i hi,
        ih (sl.set i f) ((i + 1) % W) (Nat.mod_lt _ (by omega)),
        Nat.mod_add_mod]
      congr 1
      omega

theorem costmapFold_len (W : ℕ) (fs : List CostmapFrame) :
    ∀ (sl : List CostmapFrame) (i : ℕ),
      (fs.foldl (costmapStep W) (sl, i)).1.length = sl.length := by
  induction fs with
  | nil => intro sl i; rfl
  | cons f fs ih =>
      intro sl i
      rw [List.foldl_cons]
      calc (fs.foldl (costmapStep W) (costmapStep W (sl, i) f)).1.length
          = (sl.set i f).length :=
            ih (sl.set i f) (if W ≤ i + 1 then 0 else i + 1)
        _ = sl.length := List.length_set sl i f

theorem slotsAfter_len (W : ℕ) (fs : List CostmapFrame) :
    (slotsAfter W fs).length = W := by
  unfold slotsAfter
  rw [costmapFold_len]
  simp

theorem idxAfter_mod (W : ℕ) (hW : 1 ≤ W) (fs : List CostmapFrame) :
    idxAfter W fs = fs.length % W := by
  unfold idxAfter
  rw [costmapFold_idx W fs (List.replicate W defaultFrame) 0 (by omega)]
  simp

theorem slotsAfter_snoc (W : ℕ) (hW : 1 ≤ W) (fs : List CostmapFrame)
    (f : CostmapFrame) :
    slotsAfter W (fs ++ [f]) = (slotsAfter W fs).set (fs.length % W) f := by
  have h := idxAfter_mod W hW fs
  unfold idxAfter at h
  unfold slotsAfter
  rw [List.foldl_append, List.foldl_cons, List.foldl_nil, ← h]
  rfl

theorem slotsAfter_fill (W : ℕ) (hW : 1 ≤ W) (fs : List CostmapFrame) :
    fs.length ≤ W →
      slotsAfter W fs = fs ++ List.replicate (W - fs.length) defaultFrame := by
  induction fs using List.reverseRecOn with
  | nil =>
      intro _
      simp [slotsAfter]
  | append_singleton fs f ih =>
      intro h
      have hlen : fs.length + 1 ≤ W := by simpa using h
      rw [slotsAfter_snoc W hW fs f, ih (by omega),
        Nat.mod_eq_of_lt (by omega : fs.length < W),
        List.set_append_right fs.length f (le_refl fs.length),
        Nat.sub_self]
      have h2 : W - fs.length = W - (fs.length + 1) + 1 := by omega
      rw [h2, List.replicate_succ, List.set_cons_zero]
      simp

theorem drop_len_succ_append {α : Type} (L R : List α) (x : α) :
    (L ++ x :: R).drop (L.length + 1) = R := by
  rw [List.drop_append_eq_append_drop, List.drop_of_length_le (by omega)]
  have h1 : L.length + 1 - L.length = 1 := by omega
  rw [h1]
  rfl

theorem take_len_succ_append {α : Type} (L R : List α) (x : α) :
    (L ++ x :: R).take (L.length + 1) = L ++ [x] := by
  rw [List.take_append_eq_append_take, List.take_of_length_le (by omega)]
  have h1 : L.length + 1 - L.length = 1 := by omega
  rw [h1]
  rfl

theorem rotate_set_succ {α : Type} (l : List α) (m : ℕ) (f : α)
    (hm : m < l.length) :
    (l.set m f).rotate ((m + 1) % l.length) = (l.rotate m).tail ++ [f] := by
  have htk : (l.take m).length = m := by
    rw [List.length_take]
    omega
  have hset : l.set m f = l.take m ++ f :: l.drop (m + 1) := by
    rw [List.set_eq_take_append_cons_drop, if_pos hm]
  have hsetlen : (l.set m f).length = l.length := List.length_set l m f
  have htail : (l.rotate m).tail = l.drop (m + 1) ++ l.take m := by
    rw [List.rotate_eq_drop_append_take (le_of_lt hm),
      List.drop_eq_getElem_cons hm]
    rfl
  rcases Nat.lt_or_ge (m + 1) l.length with h1 | h1
  · rw [Nat.mod_eq_of_lt h1,
      List.rotate_eq_drop_append_take (by rw [hsetlen]; omega), hset, htail]
    have hd := drop_len_succ_append (l.take m) (l.drop (m + 1)) f
    have ht := take_len_succ_append (l.take m) (l.drop (m + 1)) f
    rw [htk] at hd ht
    rw [hd, ht]
    simp
  · have h2 : m + 1 = l.length := by omega
    rw [← h2, Nat.mod_self, List.rotate_zero, hset, htail,
      List.drop_of_length_le (by omega : l.length ≤ m + 1)]
    simp

theorem slotsAfter_rotate (W : ℕ) (hW : 1 ≤ W) (fs : List CostmapFrame) :
    W ≤ fs.length →
      (slotsAfter W fs).rotate (fs.length % W) = fs.drop (fs.length - W) := by
  induction fs using List.reverseRecOn with
  | nil =>
      intro h
      simp at h
      exact absurd hW (by omega)
  | append_singleton fs f ih =>
      intro h
      have hlen1 : (fs ++ [f]).length = fs.length + 1 := by simp
      rcases Nat.lt_or_ge fs.length W with hk | hk
      · have hWeq : W = fs.length + 1 := by
          rw [hlen1] at h
          omega
        have hfull : slotsAfter W (fs ++ [f]) = fs ++ [f] := by
          rw [slotsAfter_snoc W hW fs f, slotsAfter_fill W hW fs (by omega),
            Nat.mod_eq_of_lt hk,
            List.set_append_right fs.length f (le_refl fs.length),
            Nat.sub_self]
          have h2 : W - fs.length = 1 := by omega
          rw [h2]
          rfl
        rw [hfull, hlen1, hWeq, Nat.mod_self, List.rotate_zero,
          Nat.sub_self, List.drop_zero]
      · have hmlt : fs.length % W < W := Nat.mod_lt _ (by omega)
        have hL : (slotsAfter W fs).length = W := slotsAfter_len W fs
        have hrs := rotate_set_succ (slotsAfter W fs) (fs.length % W) f
          (by rw [hL]; exact hmlt)
        rw [hL] at hrs
        rw [ih hk, List.tail_drop] at hrs
        rw [slotsAfter_snoc W hW fs f, hlen1]
        have hidx : (fs.length + 1) % W = (fs.length % W + 1) % W :=
          (Nat.mod_add_mod fs.length W 1).symm
        rw [hidx, hrs, List.drop_append_of_le_length (by omega)]
        have h3 : fs.length - W + 1 = fs.length + 1 - W := by omega
        rw [h3]

theorem pubsAfter_getLast (W : ℕ) (fs : List CostmapFrame) :
    (pubsAfter W fs).getLast? = some (publishCostmap (slotsAfter W fs)) := by
  unfold pubsAfter
  rw [List.range_succ, List.map_append, List.map_cons, List.map_nil,
    List.getLast?_concat]
  simp [List.take_of_length_le]

/-- **C8.**  The run loop writes the `i`-th received frame into window slot
`i mod W`, and publishes once initially and once after every write: the
publication list of a run that received `fs` has `|fs| + 1` entries and its
last entry is the costmap of the current window.  After `k ≤ W` received
frames the window is the received frames followed by `W - k` copies of the
default placeholder frame — so exactly `k` non-default entries when every
received frame differs from the placeholder — and after `k ≥ W` frames the
window is a rotation (hence a permutation) of the most recent `W` received
frames `fs.drop (fs.length - W)`. -/
theorem c8_sliding_window (W : ℕ) (fs : List CostmapFrame)
    (hW : 1 ≤ W) (hnd : ∀ f ∈ fs, f ≠ defaultFrame) :
    (∀ i, i ≤ fs.length → idxAfter W (fs.take i) = i % W) ∧
    (pubsAfter W fs).length = fs.length + 1 ∧
    (pubsAfter W fs).getLast? = some (publishCostmap (slotsAfter W fs)) ∧
    (fs.length ≤ W →
      slotsAfter W fs = fs ++ List.replicate (W - fs.length) defaultFrame ∧
      (slotsAfter W fs).countP (fun g => decide (g ≠ defaultFrame)) =
        fs.length) ∧
    (W ≤ fs.length →
      (slotsAfter W fs).rotate (fs.length % W) = fs.drop (fs.length - W) ∧
      List.Perm (slotsAfter W fs) (fs.drop (fs.length - W))) := by
  refine ⟨?_, ?_, ?_, ?_, ?_⟩
  · intro i hi
    rw [idxAfter_mod W hW, List.length_take]
    congr 1
    omega
  · simp [pubsAfter]
  · exact pubsAfter_getLast W fs
  · intro hle
    refine ⟨slotsAfter_fill W hW fs hle, ?_⟩
    rw [slotsAfter_fill W hW fs hle, List.countP_append]
    have h1 : fs.countP (fun g => decide (g ≠ defaultFrame)) = fs.length :=
      List.countP_eq_length.mpr (fun a ha => by
        simp only [decide_eq_true_eq]
        exact hnd a ha)
    have h2 : (List.replicate (W - fs.length) defaultFrame).countP
        (fun g => decide (g ≠ defaultFrame)) = 0 :=
      List.countP_eq_zero.mpr (fun a ha => by
        rw [List.eq_of_mem_replicate ha]
        simp)
    rw [h1, h2]
    omega
  · intro hge
    have hrot := slotsAfter_rotate W hW fs hge
    refine ⟨hrot,
      ((List.rotate_perm (slotsAfter W fs) (fs.length % W)).symm.trans ?_)⟩
    rw [hrot]

/-- Witness for C8: a window of width `2` fed the three concrete
non-default frames `frameA, frameB, frameC` ends up holding exactly the
last two of them (as a rotation of `[frameB, frameC]`). -/
theorem c8_sliding_window_witness :
    ((1 : ℕ) ≤ 2 ∧
      (∀ f ∈ ([frameA, frameB, frameC] : List CostmapFrame),
        f ≠ defaultFrame)) ∧
    ((2 : ℕ) ≤ ([frameA, frameB, frameC] : List CostmapFrame).length →
      (slotsAfter 2 [frameA, frameB, frameC]).rotate
          (([frameA, frameB, frameC] : List CostmapFrame).length % 2) =
        ([frameA, frameB, frameC] : List CostmapFrame).drop
          (([frameA, frameB, frameC] : List CostmapFrame).length - 2) ∧
      List.Perm (slotsAfter 2 [frameA, frameB, frameC])
        (([frameA, frameB, frameC] : List CostmapFrame).drop
          (([frameA, frameB, frameC] : List CostmapFrame).length - 2))) :=
  ⟨⟨by decide, by decide⟩,
    (c8_sliding_window 2 [frameA, frameB, frameC] (by decide)
      (by decide)).2.2.2.2⟩

/-- **C10.**  Every published costmap's `point_count` field is the sum over
the window of the number of occupied quadtree cells of each frame
(`quadtree.len()` counts distinct occupied 1×1 regions), not the number of
input points accumulated into the frames: the concrete three-point batch
`[(0,0,0), (0,0,0), (1,0,0)]` rasterizes to a frame with only two occupied
cells (the first cell holding two accumulated points). -/
theorem c10_point_count_cells (W : ℕ) (fs : List CostmapFrame) :
    (∀ p ∈ pubsAfter W fs,
      p.point_count = (p.frames.map fun g => g.cells.length).sum) ∧
    ∃ fr : CostmapFrame,
      rasterize (fun v => v) 1 isoId [⟨0, 0, 0⟩, ⟨0, 0, 0⟩, ⟨1, 0, 0⟩] =
        some fr ∧
      fr.cells.length = 2 ∧
      ([⟨0, 0, 0⟩, ⟨0, 0, 0⟩, ⟨1, 0, 0⟩] : List Vec3).length = 3 ∧
      cellsCountSum fr.cells = 3 := by
  constructor
  · intro p hp
    unfold pubsAfter at hp
    obtain ⟨i, _, rfl⟩ := List.mem_map.mp hp
    rfl
  · exact ⟨⟨[((0, 0), ⟨0, 2⟩), ((1, 0), ⟨0, 1⟩)], 2, 0, 0, 1, isoId⟩,
      by decide, by decide, by decide, by decide⟩
